import Mathlib

/-!
# Hazard-pointer reclamation domain (`hp.h`)

A shallow embedding of the slot list (`list_append`, `list_insert_or_append`,
`list_remove`, `list_contains`) and of the domain operations (`load`, `drop`,
`swap`, `cleanup_ptr`, `cleanup`) of `hp.h`, followed by the properties proved
about them.

Modelling conventions

* A `uintptr_t` is a `Nat`; the code only compares and copies these words.
* An `hp_t` chain is the list of the `ptr` words of its nodes in traversal
  order (`LIST_ITER` order), head node first.  A node is named by its position
  in that list.
* `calloc` is an oracle: the Boolean `alloc` says whether a call succeeds.
* `dom->deallocator` is an external callback; its calls are recorded in the
  trace `freed`, oldest call first.
* Loops that wait for another thread take a fuel argument and return `none`
  when the fuel is used up.  For `cleanup_ptr` the wait is also given with
  other threads running: the hazard list as each test of the loop finds it.
-/

namespace HazardPointer

/-- The chain of `hp_t` nodes reachable from a list head: the `ptr` word of
each node, head node first. -/
abbrev HpList := List Nat

/-- The flag bit `#define DEFER_DEALLOC 1`. -/
def DEFER_DEALLOC : Int := 1

/-- Test `flags & DEFER_DEALLOC` as a C condition. -/
def deferSet (flags : Int) : Bool := Int.land flags DEFER_DEALLOC != 0

/-- One call of `dom->deallocator`: the argument, and a snapshot of the hazard
list `dom->pointers` taken at the moment of the call (ghost data, used only to
state properties about that moment). -/
structure Dealloc where
  arg : Nat
  hazards : HpList
  deriving DecidableEq, Repr

/-- The domain `domain_t`: the hazard list `pointers`, the retired list
`retired`, and the trace of the calls made to `deallocator`. -/
structure domain_t where
  pointers : HpList
  retired : HpList
  freed : List Dealloc
  deriving DecidableEq, Repr

/-- The domain `domain_new` returns: `calloc` zeroes both list heads. -/
def domain_new : domain_t := { pointers := [], retired := [], freed := [] }

/-- The function `list_append`: allocate a node holding `ptr` and link it in
front of the current head.  Returns the new chain and the new node (position
0), or `none` when `calloc` fails. -/
def list_append (alloc : Bool) (head : HpList) (ptr : Nat) : Option (HpList × Nat) :=
  if alloc then some (ptr :: head, 0) else none

/-- The `LIST_ITER` loop of `list_insert_or_append`: the first node whose word
is 0 takes `ptr` (the CAS from 0 cannot fail without another thread).  Returns
the chain and the node written, or `none` when the traversal ends with
`need_alloc` still true. -/
def insertScan : HpList → Nat → Option (HpList × Nat)
  | [], _ => none
  | x :: xs, ptr =>
    if x = 0 then some (ptr :: xs, 0)
    else (insertScan xs ptr).map (fun r => (x :: r.1, r.2 + 1))

/-- The function `list_insert_or_append`: reuse an empty node, otherwise
`list_append`.  `none` is the NULL result. -/
def list_insert_or_append (alloc : Bool) (head : HpList) (ptr : Nat) :
    Option (HpList × Nat) :=
  match insertScan head ptr with
  | some r => some r
  | none => list_append alloc head ptr

/-- The function `list_remove`: the first node holding `ptr` is set to 0 and
the result is `true`; `false` when the traversal finds none. -/
def list_remove : HpList → Nat → HpList × Bool
  | [], _ => ([], false)
  | x :: xs, ptr =>
    if x = ptr then (0 :: xs, true)
    else ((x :: (list_remove xs ptr).1), (list_remove xs ptr).2)

/-- The function `list_contains`. -/
def list_contains : HpList → Nat → Bool
  | [], _ => false
  | x :: xs, ptr => if x = ptr then true else list_contains xs ptr

/-- The call `dom->deallocator((void *) ptr)`, recorded in the trace. -/
def deallocator (dom : domain_t) (ptr : Nat) : domain_t :=
  { dom with freed := dom.freed ++ [{ arg := ptr, hazards := dom.pointers }] }

/-- The function `load`.  Each element of `reads` is what the two SEQ_CST loads
of `*prot_ptr` observe in one iteration of the `while (1)` loop: the first
load, then the confirming re-read.  `none` means the loop is still running when
the observations are used up. -/
def load (alloc : Bool) : domain_t → List (Nat × Nat) → Option (domain_t × Nat)
  | _, [] => none
  | dom, (val, again) :: rest =>
    match list_insert_or_append alloc dom.pointers val with
    | none => some (dom, 0)
    | some (l, node) =>
      if again = val then some ({ dom with pointers := l }, val)
      else if l.get? node = some val then
        load alloc { dom with pointers := l.set node 0 } rest
      else
        load alloc { dom with pointers := (list_remove l val).1 } rest

/-- The function `drop`.  `none` is the `__builtin_unreachable()` branch. -/
def drop (dom : domain_t) (safe_val : Nat) : Option domain_t :=
  if (list_remove dom.pointers safe_val).2 then
    some { dom with pointers := (list_remove dom.pointers safe_val).1 }
  else none

/-- The loop `while (list_contains(&dom->pointers, ptr)) ;`.  Nothing in the
loop writes the list, so it leaves after a test that fails or not at all;
`none` when `fuel` further tests were not enough. -/
def spin : Nat → HpList → Nat → Option Unit
  | 0, l, ptr => if list_contains l ptr then none else some ()
  | fuel + 1, l, ptr => if list_contains l ptr then spin fuel l ptr else some ()

/-- The loop `while (list_contains(&dom->pointers, ptr)) ;` of `cleanup_ptr`
while other threads run: `views` is the hazard list as each successive test of
the loop finds it.  The loop is left at the first view in which no slot holds
`ptr`, and that view is the result; `none` when every view holds `ptr` (the
loop is still running when the views are used up). -/
def waitClear : List HpList → Nat → Option HpList
  | [], _ => none
  | v :: rest, ptr => if list_contains v ptr then waitClear rest ptr else some v

/-- The function `cleanup_ptr`, other threads running.  The test of the `if`
reads the hazard list of the call, `dom.pointers`; each test of the `while`
loop reads the next of `views`.  After the loop the destructor is called, the
hazard list being as the last test found it.  The result of
`list_insert_or_append` on the retired list is ignored by the code, also when
it is NULL. -/
def cleanup_ptr_views (views : List HpList) (alloc : Bool) (dom : domain_t) (ptr : Nat)
    (flags : Int) : Option domain_t :=
  if !list_contains dom.pointers ptr then some (deallocator dom ptr)
  else if deferSet flags then
    match list_insert_or_append alloc dom.retired ptr with
    | some (l, _) => some { dom with retired := l }
    | none => some dom
  else
    match waitClear views ptr with
    | some v => some (deallocator { dom with pointers := v } ptr)
    | none => none

/-- The function `cleanup_ptr` with no other thread running: every test of the
`while` loop, `fuel + 1` of them, finds the hazard list of the call. -/
def cleanup_ptr (fuel : Nat) (alloc : Bool) (dom : domain_t) (ptr : Nat) (flags : Int) :
    Option domain_t :=
  cleanup_ptr_views (List.replicate (fuel + 1) dom.pointers) alloc dom ptr flags

/-- The function `swap`.  Returns the domain, the new contents of `*prot_ptr`
and the value returned. -/
def swap (alloc : Bool) (dom : domain_t) (prot : Nat) (new_val : Nat) :
    domain_t × Nat × Nat :=
  match list_insert_or_append alloc dom.pointers new_val with
  | none => (dom, prot, 0)
  | some (l, _) => ({ dom with pointers := l }, new_val, prot)

/-- The step `if (list_remove(&dom->pointers, ptr)) dom->deallocator(ptr);` of
`cleanup`. -/
def claimAndFree (dom : domain_t) (ptr : Nat) : domain_t :=
  if (list_remove dom.pointers ptr).2 then
    deallocator { dom with pointers := (list_remove dom.pointers ptr).1 } ptr
  else dom

/-- The body of the `LIST_ITER` loop of `cleanup` for a node holding `ptr`. -/
def cleanupNode (fuel : Nat) (flags : Int) (dom : domain_t) (ptr : Nat) : Option domain_t :=
  if ptr = 0 then some dom
  else if !list_contains dom.pointers ptr then some (claimAndFree dom ptr)
  else if !deferSet flags then
    match spin fuel dom.pointers ptr with
    | some _ => some (claimAndFree dom ptr)
    | none => none
  else some dom

/-- The `LIST_ITER` loop of `cleanup` over the nodes still to visit.  The body
never writes `dom->retired`, so the words read are those of the chain at
entry. -/
def cleanupLoop (fuel : Nat) (flags : Int) : List Nat → domain_t → Option domain_t
  | [], dom => some dom
  | ptr :: rest, dom =>
    match cleanupNode fuel flags dom ptr with
    | some dom1 => cleanupLoop fuel flags rest dom1
    | none => none

/-- The function `cleanup`. -/
def cleanup (fuel : Nat) (dom : domain_t) (flags : Int) : Option domain_t :=
  cleanupLoop fuel flags dom.retired dom

/-- The number of `deallocator` calls made so far with argument `p`. -/
def freedCount (dom : domain_t) (p : Nat) : Nat :=
  (dom.freed.map Dealloc.arg).count p

/-- The non-zero words of a chain, in traversal order: its logical members. -/
def members (l : HpList) : List Nat := l.filter (fun x => x != 0)

/-- The domain together with the caller-owned protected word `*prot_ptr`. -/
structure World where
  dom : domain_t
  slot : Nat
  deriving DecidableEq, Repr

/-- The operations of the public interface, each taken as one atomic step. -/
inductive Op where
  | load (alloc : Bool)
  | drop (safe_val : Nat)
  | swap (alloc : Bool) (new_val : Nat)
  | cleanup_ptr (alloc : Bool) (ptr : Nat) (flags : Int)
  | cleanup (flags : Int)
  deriving DecidableEq, Repr

/-- One operation run to completion with no other thread active.  `none` when
the call does not return (a BLOCK wait on a hazard nobody clears) or reaches
`__builtin_unreachable()`. -/
def step (fuel : Nat) (w : World) : Op → Option World
  | Op.load alloc =>
    (load alloc w.dom [(w.slot, w.slot)]).map (fun r => { w with dom := r.1 })
  | Op.drop v => (drop w.dom v).map (fun d => { w with dom := d })
  | Op.swap alloc new_val =>
    some { dom := (swap alloc w.dom w.slot new_val).1,
           slot := (swap alloc w.dom w.slot new_val).2.1 }
  | Op.cleanup_ptr alloc ptr flags =>
    (cleanup_ptr fuel alloc w.dom ptr flags).map (fun d => { w with dom := d })
  | Op.cleanup flags => (cleanup fuel w.dom flags).map (fun d => { w with dom := d })

/-- A sequence of operations, run from `w`. -/
def run (fuel : Nat) : World → List Op → Option World
  | w, [] => some w
  | w, op :: ops =>
    match step fuel w op with
    | some w1 => run fuel w1 ops
    | none => none

/-- Every recorded `deallocator` call was made while no hazard slot held its
argument. -/
def SafeTrace (dom : domain_t) : Prop :=
  ∀ e ∈ dom.freed, list_contains e.hazards e.arg = false

/-! ## Interleaved execution: one `load` against `swap` and `cleanup_ptr`

Two threads share the protected slot and the hazard list.  Every atomic access
of the code (`atomic_load`, `atomic_cas`, `atomic_exchange`) is one step of the
thread that makes it, and a schedule chooses which thread moves next.  Here the
hazard chain is kept in allocation order, oldest node first: a node never moves
when another is linked in front of it, so a node is named by its position.
`LIST_ITER` therefore visits the last position first and position 0 last, and
the head pointer, like every `next` pointer, is given as the number of nodes
from the node it points to down to the end of the chain (0 for NULL).  `calloc`
succeeds in this model. -/

/-- The word `node->ptr` of node `i` of the chain. -/
def nodeWord (chain : List Nat) (i : Nat) : Nat := chain.getD i 0

/-- Where a thread stands inside `list_insert_or_append`. -/
inductive InsPc where
  /-- About to load `*head`. -/
  | head
  /-- About to load `node->ptr` of node `i`. -/
  | visit (i : Nat)
  /-- Has read 0 in node `i`, about to CAS `node->ptr` from 0 to `ptr`. -/
  | cas (i : Nat)
  /-- About to load `node->next` of node `i`. -/
  | next (i : Nat)
  /-- In `list_append`: about to `calloc` the node and load `*head`. -/
  | alloc
  /-- In `list_append`: about to CAS `*head` from `old` to the new node. -/
  | link (old : Nat)
  /-- Returned node `i`. -/
  | ret (i : Nat)
  deriving DecidableEq, Repr

/-- The loop test of `LIST_ITER` in `list_insert_or_append` on a pointer just
loaded. -/
def enterIns : Nat → InsPc
  | 0 => InsPc.alloc
  | i + 1 => InsPc.visit i

/-- One atomic step of `list_insert_or_append(head, ptr)`. -/
def insStep (ptr : Nat) (chain : List Nat) : InsPc → List Nat × InsPc
  | InsPc.head => (chain, enterIns chain.length)
  | InsPc.visit i => (chain, if nodeWord chain i = 0 then InsPc.cas i else InsPc.next i)
  | InsPc.cas i =>
    if nodeWord chain i = 0 then (chain.set i ptr, InsPc.ret i) else (chain, InsPc.next i)
  | InsPc.next i => (chain, enterIns i)
  | InsPc.alloc => (chain, InsPc.link chain.length)
  | InsPc.link old =>
    if chain.length = old then (chain ++ [ptr], InsPc.ret old)
    else (chain, InsPc.link chain.length)
  | InsPc.ret i => (chain, InsPc.ret i)

/-- Where a thread stands inside `list_contains`. -/
inductive ConPc where
  | head
  | visit (i : Nat)
  | next (i : Nat)
  | ret (found : Bool)
  deriving DecidableEq, Repr

/-- The loop test of `LIST_ITER` in `list_contains`. -/
def enterCon : Nat → ConPc
  | 0 => ConPc.ret false
  | i + 1 => ConPc.visit i

/-- One atomic step of `list_contains(head, ptr)`. -/
def conStep (ptr : Nat) (chain : List Nat) : ConPc → ConPc
  | ConPc.head => enterCon chain.length
  | ConPc.visit i => if nodeWord chain i = ptr then ConPc.ret true else ConPc.next i
  | ConPc.next i => enterCon i
  | ConPc.ret found => ConPc.ret found

/-- Where a thread stands inside `list_remove`. -/
inductive RemPc where
  | head
  | visit (i : Nat)
  | cas (i : Nat)
  | next (i : Nat)
  | ret (ok : Bool)
  deriving DecidableEq, Repr

/-- The loop test of `LIST_ITER` in `list_remove`. -/
def enterRem : Nat → RemPc
  | 0 => RemPc.ret false
  | i + 1 => RemPc.visit i

/-- One atomic step of `list_remove(head, ptr)`. -/
def remStep (ptr : Nat) (chain : List Nat) : RemPc → List Nat × RemPc
  | RemPc.head => (chain, enterRem chain.length)
  | RemPc.visit i => (chain, if nodeWord chain i = ptr then RemPc.cas i else RemPc.next i)
  | RemPc.cas i =>
    if nodeWord chain i = ptr then (chain.set i 0, RemPc.ret true) else (chain, RemPc.next i)
  | RemPc.next i => (chain, enterRem i)
  | RemPc.ret ok => (chain, RemPc.ret ok)

/-- Where the reader stands inside `load`. -/
inductive LoadPc where
  /-- About to do `val = atomic_load(prot_ptr)`. -/
  | start
  /-- Inside `list_insert_or_append(&dom->pointers, val)`. -/
  | publish (val : Nat) (p : InsPc)
  /-- About to re-read `*prot_ptr`; `node` holds the hazard. -/
  | confirm (val : Nat) (node : Nat)
  /-- The re-read differed: about to CAS `node->ptr` from `val` to 0. -/
  | clear (val : Nat) (node : Nat)
  /-- That CAS failed: inside `list_remove(&dom->pointers, val)`. -/
  | remove (val : Nat) (p : RemPc)
  /-- The call has returned `val`. -/
  | returned (val : Nat)
  deriving DecidableEq, Repr

/-- Where the writer stands inside `swap(dom, prot_ptr, new_val)` followed by
`cleanup_ptr(dom, old, 0)` on the value `swap` returned. -/
inductive WriterPc where
  /-- In `swap`, inside `list_insert_or_append(&dom->pointers, new_val)`. -/
  | publish (p : InsPc)
  /-- In `swap`, about to do the `atomic_exchange`. -/
  | exchange
  /-- In `cleanup_ptr`, inside a call of `list_contains(&dom->pointers, old)`:
  the test of the `if` or a test of the `while` loop. -/
  | test (old : Nat) (p : ConPc)
  /-- In `cleanup_ptr`, about to call `dom->deallocator(old)`. -/
  | free (old : Nat)
  /-- The writer has returned from `cleanup_ptr`. -/
  | returned
  deriving DecidableEq, Repr

/-- The shared memory and the two program counters. -/
structure Sys where
  slot : Nat
  chain : List Nat
  freed : List Nat
  reader : LoadPc
  writer : WriterPc
  deriving DecidableEq, Repr

/-- One atomic step of the reader; a reader that has returned stays put. -/
def readerStep (s : Sys) : Sys :=
  match s.reader with
  | LoadPc.start => { s with reader := LoadPc.publish s.slot InsPc.head }
  | LoadPc.publish val p =>
    match insStep val s.chain p with
    | (c, InsPc.ret node) => { s with chain := c, reader := LoadPc.confirm val node }
    | (c, q) => { s with chain := c, reader := LoadPc.publish val q }
  | LoadPc.confirm val node =>
    if s.slot = val then { s with reader := LoadPc.returned val }
    else { s with reader := LoadPc.clear val node }
  | LoadPc.clear val node =>
    if nodeWord s.chain node = val then
      { s with chain := s.chain.set node 0, reader := LoadPc.start }
    else { s with reader := LoadPc.remove val RemPc.head }
  | LoadPc.remove val p =>
    match remStep val s.chain p with
    | (c, RemPc.ret _) => { s with chain := c, reader := LoadPc.start }
    | (c, q) => { s with chain := c, reader := LoadPc.remove val q }
  | LoadPc.returned _ => s

/-- One atomic step of the writer, which installs `new_val`; a writer that has
returned stays put.  With flags 0 both tests of `cleanup_ptr` go on alike: when
`list_contains` returns false the destructor is called, when it returns true
`list_contains` is called again. -/
def writerStep (new_val : Nat) (s : Sys) : Sys :=
  match s.writer with
  | WriterPc.publish p =>
    match insStep new_val s.chain p with
    | (c, InsPc.ret _) => { s with chain := c, writer := WriterPc.exchange }
    | (c, q) => { s with chain := c, writer := WriterPc.publish q }
  | WriterPc.exchange =>
    { s with slot := new_val, writer := WriterPc.test s.slot ConPc.head }
  | WriterPc.test old p =>
    match conStep old s.chain p with
    | ConPc.ret true => { s with writer := WriterPc.test old ConPc.head }
    | ConPc.ret false => { s with writer := WriterPc.free old }
    | q => { s with writer := WriterPc.test old q }
  | WriterPc.free old => { s with freed := s.freed ++ [old], writer := WriterPc.returned }
  | WriterPc.returned => s

/-- The two threads. -/
inductive Tid where
  | reader
  | writer
  deriving DecidableEq, Repr

/-- The execution that follows a schedule, first entry first. -/
def exec (new_val : Nat) : Sys → List Tid → Sys
  | s, [] => s
  | s, Tid.reader :: rest => exec new_val (readerStep s) rest
  | s, Tid.writer :: rest => exec new_val (writerStep new_val s) rest

/-- The start of the race: the slot holds `a`, the hazard chain is `chain0`,
the reader enters `load` and the writer enters `swap`. -/
def raceInit (a : Nat) (chain0 : List Nat) : Sys :=
  { slot := a, chain := chain0, freed := [], reader := LoadPc.start,
    writer := WriterPc.publish InsPc.head }

/-- A number of reader steps within which `load` returns, on every schedule. -/
def readerBound (chain0 : List Nat) : Nat := 9 * chain0.length + 27

/-- The cursor of a `list_insert_or_append` in progress points into the chain
of `n` nodes; `ret` is never a stored position (the caller goes on at once). -/
def cursorOk (n : Nat) : InsPc → Prop
  | InsPc.visit i => i < n
  | InsPc.cas i => i < n
  | InsPc.next i => i < n
  | InsPc.ret _ => False
  | _ => True

/-- The writer's side of the invariant: the slot holds `a` until the exchange
and `b` after it, `cleanup_ptr` was given `a`, and the destructor has run (once,
on `a`) only when the writer has returned. -/
def writerInv (a b : Nat) (s : Sys) : Prop :=
  match s.writer with
  | WriterPc.publish _ => s.slot = a ∧ s.freed = []
  | WriterPc.exchange => s.slot = a ∧ s.freed = []
  | WriterPc.test old _ => s.slot = b ∧ old = a ∧ s.freed = []
  | WriterPc.free old => s.slot = b ∧ old = a ∧ s.freed = []
  | WriterPc.returned => s.slot = b ∧ s.freed = [a]

/-- The writer has not yet decided that node `k` does not hold the retired
value: it is before `cleanup_ptr`, or its current `list_contains` traversal has
node `k` still ahead. -/
def notPassed (k : Nat) : WriterPc → Prop
  | WriterPc.publish _ => True
  | WriterPc.exchange => True
  | WriterPc.test _ ConPc.head => True
  | WriterPc.test _ (ConPc.visit i) => k ≤ i
  | WriterPc.test _ (ConPc.next i) => k < i
  | WriterPc.test _ (ConPc.ret _) => False
  | WriterPc.free _ => False
  | WriterPc.returned => False

/-- The reader's side of the invariant. -/
def readerInv (a b : Nat) (s : Sys) : Prop :=
  match s.reader with
  | LoadPc.start => True
  | LoadPc.publish val p =>
    (val = a ∨ val = b) ∧ (val = b → s.slot = b) ∧ cursorOk s.chain.length p
  | LoadPc.confirm val node =>
    (val = a ∨ val = b) ∧ (val = b → s.slot = b) ∧ nodeWord s.chain node = val
  | LoadPc.clear _ _ => s.slot = b
  | LoadPc.remove _ _ => s.slot = b
  | LoadPc.returned v =>
    (v = a ∨ v = b) ∧ (v = b → s.slot = b) ∧
      ∃ k, nodeWord s.chain k = v ∧ (v = a → notPassed k s.writer)

/-- The invariant of the race. -/
def RaceInv (a b : Nat) (s : Sys) : Prop := writerInv a b s ∧ readerInv a b s

/-- An upper bound on the steps left in `list_insert_or_append` over a chain of
`n` nodes. -/
def insCost (n : Nat) : InsPc → Nat
  | InsPc.head => 3 * n + 3
  | InsPc.visit i => 3 * i + 5
  | InsPc.cas i => 3 * i + 4
  | InsPc.next i => 3 * i + 3
  | InsPc.alloc => 2
  | InsPc.link old => if old = n then 1 else 2
  | InsPc.ret _ => 0

/-- An upper bound on the steps left in `list_remove` over a chain of `n`
nodes. -/
def remCost (n : Nat) : RemPc → Nat
  | RemPc.head => 3 * n + 1
  | RemPc.visit i => 3 * i + 3
  | RemPc.cas i => 3 * i + 2
  | RemPc.next i => 3 * i + 1
  | RemPc.ret _ => 1

/-- The steps of an iteration of `load` that starts when the slot already
holds its final value. -/
def lastIter (n : Nat) : Nat := 3 * n + 5

/-- The steps of a retry: clearing the hazard, then a last iteration. -/
def retryCost (n : Nat) : Nat := 6 * n + 7

/-- The steps left once the hazard on `val` is published. -/
def afterPublish (b val n : Nat) : Nat := 1 + if val = b then 0 else retryCost n

/-- An upper bound on the steps the reader still takes. -/
def readerCost (b : Nat) (s : Sys) : Nat :=
  match s.reader with
  | LoadPc.start =>
    1 + insCost s.chain.length InsPc.head + afterPublish b s.slot (s.chain.length + 1)
  | LoadPc.publish val p => insCost s.chain.length p + afterPublish b val (s.chain.length + 1)
  | LoadPc.confirm val _ => afterPublish b val s.chain.length
  | LoadPc.clear _ _ => retryCost s.chain.length
  | LoadPc.remove _ p => remCost s.chain.length p + lastIter s.chain.length
  | LoadPc.returned _ => 0

/-- The reader's cost, plus what a node linked by the writer can add to it. -/
def potential (b : Nat) (s : Sys) : Nat :=
  readerCost b s + match s.writer with
    | WriterPc.publish _ => 9
    | _ => 0

/-- Whether running `op` in `w` publishes a hazard on `v`: a `load` that
returns `v`, or a `swap` that installs `v` (its hazard could be published). -/
def publishes (v : Nat) (w : World) : Op → Bool
  | Op.load alloc => (load alloc w.dom [(w.slot, w.slot)]).map Prod.snd == some v
  | Op.swap alloc new_val =>
    new_val == v && (list_insert_or_append alloc w.dom.pointers new_val).isSome
  | _ => false

/-- The number of publications of `v` made along the run of `ops` from `w`. -/
def publications (fuel : Nat) (v : Nat) : World → List Op → Nat
  | _, [] => 0
  | w, op :: ops =>
    match step fuel w op with
    | some w1 => (if publishes v w op then 1 else 0) + publications fuel v w1 ops
    | none => 0

/-- How a chain may change over one operation: slots are only added, in front
of the old head; every slot that was there is still there, behind the added
ones and in the same order, and its word is as before, or was 0 before (a
hazard was published in it), or is 0 now (it was cleared). -/
def Grows (before after : HpList) : Prop :=
  ∃ added kept, after = added ++ kept ∧
    List.Forall₂ (fun x y => y = x ∨ x = 0 ∨ y = 0) before kept

/-! ## Slot visits

The cost of a call, counted as the claim on progress counts it: one step for
each slot (node) a traversal reads, and one for a node that is written outside
a traversal (the node `list_append` fills, the node `load` clears). -/

/-- Slots read by `list_contains(head, ptr)`: up to the first one holding
`ptr`. -/
def containsVisits : HpList → Nat → Nat
  | [], _ => 0
  | x :: xs, ptr => if x = ptr then 1 else 1 + containsVisits xs ptr

/-- Slots read by `list_remove(head, ptr)`: up to the first one holding
`ptr`. -/
def removeVisits : HpList → Nat → Nat
  | [], _ => 0
  | x :: xs, ptr => if x = ptr then 1 else 1 + removeVisits xs ptr

/-- Slots read by the `LIST_ITER` loop of `list_insert_or_append`: up to the
first empty one. -/
def scanVisits : HpList → Nat
  | [] => 0
  | x :: xs => if x = 0 then 1 else 1 + scanVisits xs

/-- Slots touched by `list_insert_or_append(head, ptr)`: the scan, and the new
node when `list_append` allocates one. -/
def insertVisits (alloc : Bool) (head : HpList) : Nat :=
  scanVisits head + if list_contains head 0 = false ∧ alloc = true then 1 else 0

/-- Slots touched by `load`, and the number of iterations of its `while (1)`
loop, with the reads of the protected slot as in `load`. -/
def loadVisits (alloc : Bool) : domain_t → List (Nat × Nat) → Option (Nat × Nat)
  | _, [] => none
  | dom, (val, again) :: rest =>
    match list_insert_or_append alloc dom.pointers val with
    | none => some (insertVisits alloc dom.pointers, 1)
    | some (l, node) =>
      if again = val then some (insertVisits alloc dom.pointers, 1)
      else if l.get? node = some val then
        (loadVisits alloc { dom with pointers := l.set node 0 } rest).map
          (fun r => (insertVisits alloc dom.pointers + 1 + r.1, r.2 + 1))
      else
        (loadVisits alloc { dom with pointers := (list_remove l val).1 } rest).map
          (fun r => (insertVisits alloc dom.pointers + 1 + removeVisits l val + r.1, r.2 + 1))

/-- Slots touched by `swap`. -/
def swapVisits (alloc : Bool) (dom : domain_t) : Nat := insertVisits alloc dom.pointers

/-- Slots read by the loop `while (list_contains(&dom->pointers, ptr)) ;`. -/
def spinVisits : Nat → HpList → Nat → Option Nat
  | 0, l, ptr => if list_contains l ptr then none else some (containsVisits l ptr)
  | fuel + 1, l, ptr =>
    if list_contains l ptr then
      (spinVisits fuel l ptr).map (fun n => containsVisits l ptr + n)
    else some (containsVisits l ptr)

/-- Slots touched by `cleanup_ptr`. -/
def cleanup_ptrVisits (fuel : Nat) (alloc : Bool) (dom : domain_t) (ptr : Nat) (flags : Int) :
    Option Nat :=
  if !list_contains dom.pointers ptr then some (containsVisits dom.pointers ptr)
  else if deferSet flags then
    some (containsVisits dom.pointers ptr + insertVisits alloc dom.retired)
  else
    (spinVisits fuel dom.pointers ptr).map (fun n => containsVisits dom.pointers ptr + n)

/-- Slots touched by the body of the loop of `cleanup` for a retired node
holding `ptr`: the node itself, then the hazard slots read by `list_contains`
and `list_remove`. -/
def cleanupNodeVisits (fuel : Nat) (flags : Int) (dom : domain_t) (ptr : Nat) : Option Nat :=
  if ptr = 0 then some 1
  else if !list_contains dom.pointers ptr then
    some (1 + containsVisits dom.pointers ptr + removeVisits dom.pointers ptr)
  else if !deferSet flags then
    (spinVisits fuel dom.pointers ptr).map
      (fun n => 1 + containsVisits dom.pointers ptr + n + removeVisits dom.pointers ptr)
  else some (1 + containsVisits dom.pointers ptr)

/-- Slots touched by the loop of `cleanup` over the nodes still to visit. -/
def cleanupLoopVisits (fuel : Nat) (flags : Int) : List Nat → domain_t → Option Nat
  | [], _ => some 0
  | ptr :: rest, dom =>
    match cleanupNode fuel flags dom ptr, cleanupNodeVisits fuel flags dom ptr with
    | some dom1, some n => (cleanupLoopVisits fuel flags rest dom1).map (fun m => n + m)
    | _, _ => none

/-- Slots touched by `cleanup`. -/
def cleanupVisits (fuel : Nat) (dom : domain_t) (flags : Int) : Option Nat :=
  cleanupLoopVisits fuel flags dom.retired dom

/-- Of the slots touched by the body of the loop of `cleanup` for a retired
node holding `ptr`, those read by its claim step, the call of `list_remove`; 0
when the body makes no such call. -/
def cleanupNodeClaimVisits (flags : Int) (dom : domain_t) (ptr : Nat) : Nat :=
  if ptr = 0 then 0
  else if !list_contains dom.pointers ptr then removeVisits dom.pointers ptr
  else if !deferSet flags then removeVisits dom.pointers ptr
  else 0

/-- Of the slots touched by the loop of `cleanup`, those read by its claim
steps. -/
def cleanupLoopClaimVisits (fuel : Nat) (flags : Int) : List Nat → domain_t → Option Nat
  | [], _ => some 0
  | ptr :: rest, dom =>
    match cleanupNode fuel flags dom ptr with
    | some dom1 =>
      (cleanupLoopClaimVisits fuel flags rest dom1).map
        (fun m => cleanupNodeClaimVisits flags dom ptr + m)
    | none => none

/-- Of the slots touched by `cleanup`, those read by its claim steps. -/
def cleanupClaimVisits (fuel : Nat) (dom : domain_t) (flags : Int) : Option Nat :=
  cleanupLoopClaimVisits fuel flags dom.retired dom

/-! ## The demo writer (`main.c`) -/

/-- How one iteration of the loop of `writer_thread` ends. -/
inductive WriterOutcome where
  /-- The branch `if (!old_config)`: `free(new_config)` was called on `freed_new`
  and `err` ended the process, leaving the domain and the slot as given. -/
  | aborted (dom : domain_t) (slot : Nat) (freed_new : Nat)
  /-- The `else` branch ran to its end. -/
  | updated (dom : domain_t) (slot : Nat)
  deriving DecidableEq, Repr

/-- One iteration of the loop of `writer_thread` on the configuration
`new_config`: `swap`, then either `free(new_config); err(...)` when the result
is 0, or `drop(new_config); cleanup_ptr(old_config, 0)`.  `none` when a call
does not return. -/
def writer_thread_iter (fuel : Nat) (alloc : Bool) (dom : domain_t) (slot new_config : Nat) :
    Option WriterOutcome :=
  match swap alloc dom slot new_config with
  | (dom1, slot1, old_config) =>
    if old_config = 0 then some (WriterOutcome.aborted dom1 slot1 new_config)
    else
      match drop dom1 new_config with
      | none => none
      | some dom2 =>
        match cleanup_ptr fuel alloc dom2 old_config 0 with
        | none => none
        | some dom3 => some (WriterOutcome.updated dom3 slot1)

/-! ## The slot list -/

theorem list_contains_iff (l : HpList) (p : Nat) : list_contains l p = true ↔ p ∈ l := by
  induction l with
  | nil => simp [list_contains]
  | cons x xs ih =>
    by_cases h : x = p
    · simp [list_contains, h]
    · have h2 : ¬ p = x := fun e => h e.symm
      simp [list_contains, h, h2, ih]

theorem list_contains_false_iff (l : HpList) (p : Nat) :
    list_contains l p = false ↔ p ∉ l := by
  rw [← list_contains_iff]; simp

theorem list_remove_snd (l : HpList) (p : Nat) : (list_remove l p).2 = list_contains l p := by
  induction l with
  | nil => rfl
  | cons x xs ih =>
    by_cases h : x = p
    · simp [list_remove, list_contains, h]
    · simp [list_remove, list_contains, h, ih]

theorem list_remove_of_not_contains (l : HpList) (p : Nat) (h : list_contains l p = false) :
    list_remove l p = (l, false) := by
  induction l with
  | nil => rfl
  | cons x xs ih =>
    by_cases hx : x = p
    · simp [list_contains, hx] at h
    · simp only [list_contains, hx, if_false] at h
      simp [list_remove, hx, ih h]

theorem list_remove_length (l : HpList) (p : Nat) : (list_remove l p).1.length = l.length := by
  induction l with
  | nil => rfl
  | cons x xs ih =>
    by_cases h : x = p
    · simp [list_remove, h]
    · simp [list_remove, h, ih]

theorem insertScan_none_of_no_empty (l : HpList) (p : Nat) (h : list_contains l 0 = false) :
    insertScan l p = none := by
  induction l with
  | nil => rfl
  | cons x xs ih =>
    by_cases hx : x = 0
    · simp [list_contains, hx] at h
    · simp only [list_contains, hx, if_false] at h
      simp [insertScan, hx, ih h]

theorem insertScan_some_of_empty (l : HpList) (p : Nat) (h : list_contains l 0 = true) :
    ∃ r, insertScan l p = some r := by
  induction l with
  | nil => simp [list_contains] at h
  | cons x xs ih =>
    by_cases hx : x = 0
    · simp [insertScan, hx]
    · simp only [list_contains, hx, if_false] at h
      obtain ⟨r, hr⟩ := ih h
      simp [insertScan, hx, hr]

theorem insertScan_spec (l : HpList) (p : Nat) (r : HpList × Nat)
    (h : insertScan l p = some r) :
    r.1.get? r.2 = some p ∧ l.get? r.2 = some 0 ∧ r.1 = l.set r.2 p ∧
      list_contains r.1 p = true := by
  induction l generalizing r with
  | nil => simp [insertScan] at h
  | cons x xs ih =>
    by_cases hx : x = 0
    · simp [insertScan, hx] at h
      subst h
      simp [list_contains, hx]
    · simp only [insertScan, hx, if_false] at h
      cases hs : insertScan xs p with
      | none => simp [hs] at h
      | some q =>
        simp [hs] at h
        subst h
        obtain ⟨h1, h2, h3, h4⟩ := ih q hs
        refine ⟨by simpa using h1, by simpa using h2, by simp [← h3], ?_⟩
        simp [list_contains, h4]

theorem list_insert_or_append_contains (alloc : Bool) (l : HpList) (p : Nat)
    (r : HpList × Nat) (h : list_insert_or_append alloc l p = some r) :
    list_contains r.1 p = true ∧ r.1.get? r.2 = some p := by
  unfold list_insert_or_append at h
  cases hs : insertScan l p with
  | some q =>
    simp [hs] at h
    subst h
    exact ⟨(insertScan_spec l p q hs).2.2.2, (insertScan_spec l p q hs).1⟩
  | none =>
    simp [hs, list_append] at h
    obtain ⟨_, h⟩ := h
    subst h
    simp [list_contains]

theorem list_insert_or_append_alloc (l : HpList) (p : Nat) :
    ∃ r, list_insert_or_append true l p = some r := by
  unfold list_insert_or_append
  cases hs : insertScan l p with
  | some q => exact ⟨q, rfl⟩
  | none => simp [list_append]

theorem list_insert_or_append_fail (l : HpList) (p : Nat) (h : list_contains l 0 = false) :
    list_insert_or_append false l p = none := by
  simp [list_insert_or_append, insertScan_none_of_no_empty l p h, list_append]

/-! ## Logical members as a multiset -/

theorem members_insertScan (l : HpList) (p : Nat) (hp : p ≠ 0) (r : HpList × Nat)
    (h : insertScan l p = some r) : (members r.1).Perm (p :: members l) := by
  induction l generalizing r with
  | nil => simp [insertScan] at h
  | cons x xs ih =>
    by_cases hx : x = 0
    · subst hx
      simp [insertScan] at h
      subst h
      simp [members, hp]
    · simp only [insertScan, hx, if_false] at h
      cases hs : insertScan xs p with
      | none => simp [hs] at h
      | some q =>
        simp [hs] at h
        subst h
        have := ih q hs
        simp only [members, List.filter_cons, bne_iff_ne, ne_eq, hx, not_false_eq_true,
          if_true] at this ⊢
        exact (List.Perm.cons x this).trans (List.Perm.swap p x _)

theorem members_list_insert_or_append (alloc : Bool) (l : HpList) (p : Nat) (hp : p ≠ 0)
    (r : HpList × Nat) (h : list_insert_or_append alloc l p = some r) :
    (members r.1).Perm (p :: members l) := by
  unfold list_insert_or_append at h
  cases hs : insertScan l p with
  | some q =>
    simp [hs] at h
    subst h
    exact members_insertScan l p hp q hs
  | none =>
    simp [hs, list_append] at h
    obtain ⟨_, h⟩ := h
    subst h
    simp [members, hp]

theorem members_list_remove (l : HpList) (p : Nat) (hp : p ≠ 0)
    (h : list_contains l p = true) :
    (p :: members (list_remove l p).1).Perm (members l) := by
  induction l with
  | nil => simp [list_contains] at h
  | cons x xs ih =>
    by_cases hx : x = p
    · subst hx
      simp [list_remove, members, hp]
    · simp only [list_contains, hx, if_false] at h
      have := ih h
      by_cases h0 : x = 0
      · subst h0
        have hp2 : ¬ 0 = p := hx
        simpa [list_remove, hp2, members] using this
      · simp only [members, list_remove, hx, if_false, List.filter_cons, bne_iff_ne, ne_eq, h0,
          not_false_eq_true, if_true] at this ⊢
        exact (List.Perm.swap x p _).trans (List.Perm.cons x this)

/-! ## The domain operations, one call at a time -/

theorem spin_of_contains (fuel : Nat) (l : HpList) (p : Nat) (h : list_contains l p = true) :
    spin fuel l p = none := by
  induction fuel with
  | zero => simp [spin, h]
  | succ n ih => simp [spin, h, ih]

theorem spin_of_not_contains (fuel : Nat) (l : HpList) (p : Nat)
    (h : list_contains l p = false) : spin fuel l p = some () := by
  cases fuel <;> simp [spin, h]

theorem waitClear_of_contains (views : List HpList) (p : Nat)
    (h : ∀ v ∈ views, list_contains v p = true) : waitClear views p = none := by
  induction views with
  | nil => rfl
  | cons v rest ih =>
    have hv := h v (List.mem_cons_self v rest)
    simp [waitClear, hv, ih (fun u hu => h u (List.mem_cons_of_mem v hu))]

/-- With no other thread running `cleanup_ptr` is the code read with the loop
`spin`. -/
theorem cleanup_ptr_eq (fuel : Nat) (alloc : Bool) (dom : domain_t) (ptr : Nat) (flags : Int) :
    cleanup_ptr fuel alloc dom ptr flags =
      if !list_contains dom.pointers ptr then some (deallocator dom ptr)
      else if deferSet flags then
        match list_insert_or_append alloc dom.retired ptr with
        | some (l, _) => some { dom with retired := l }
        | none => some dom
      else
        match spin fuel dom.pointers ptr with
        | some _ => some (deallocator dom ptr)
        | none => none := by
  unfold cleanup_ptr cleanup_ptr_views
  cases hc : list_contains dom.pointers ptr with
  | false => simp
  | true =>
    have hw : waitClear (List.replicate (fuel + 1) dom.pointers) ptr = none :=
      waitClear_of_contains _ ptr (fun v hv => by rw [(List.mem_replicate.mp hv).2]; exact hc)
    simp [hw, spin_of_contains fuel _ _ hc]

theorem claimAndFree_of_not_contains (dom : domain_t) (p : Nat)
    (h : list_contains dom.pointers p = false) : claimAndFree dom p = dom := by
  simp [claimAndFree, list_remove_snd, h]

theorem cleanupNode_eq (fuel : Nat) (flags : Int) (dom d : domain_t) (p : Nat)
    (h : cleanupNode fuel flags dom p = some d) : d = dom := by
  unfold cleanupNode at h
  by_cases hp : p = 0
  · simp [hp] at h; exact h.symm
  · cases hc : list_contains dom.pointers p with
    | false =>
      simp [hp, hc, claimAndFree_of_not_contains dom p hc] at h
      exact h.symm
    | true =>
      cases hd : deferSet flags with
      | false => simp [hp, hc, hd, spin_of_contains fuel _ _ hc] at h
      | true => simp [hp, hc, hd] at h; exact h.symm

theorem cleanupLoop_eq (fuel : Nat) (flags : Int) (nodes : List Nat) (dom d : domain_t)
    (h : cleanupLoop fuel flags nodes dom = some d) : d = dom := by
  induction nodes generalizing dom with
  | nil => simp [cleanupLoop] at h; exact h.symm
  | cons p rest ih =>
    unfold cleanupLoop at h
    cases hn : cleanupNode fuel flags dom p with
    | none => simp [hn] at h
    | some d1 =>
      simp only [hn] at h
      have h1 := cleanupNode_eq fuel flags dom d1 p hn
      subst h1
      exact ih _ h

theorem cleanup_eq (fuel : Nat) (flags : Int) (dom d : domain_t)
    (h : cleanup fuel dom flags = some d) : d = dom :=
  cleanupLoop_eq fuel flags dom.retired dom d h

theorem cleanupLoop_defer (fuel : Nat) (nodes : List Nat) (dom : domain_t) :
    cleanupLoop fuel DEFER_DEALLOC nodes dom = some dom := by
  induction nodes with
  | nil => rfl
  | cons p rest ih =>
    have hn : cleanupNode fuel DEFER_DEALLOC dom p = some dom := by
      unfold cleanupNode
      by_cases hp : p = 0
      · simp [hp]
      · cases hc : list_contains dom.pointers p with
        | false => simp [hp, hc, claimAndFree_of_not_contains dom p hc]
        | true =>
          have hd : deferSet DEFER_DEALLOC = true := by decide
          simp [hp, hc, hd]
    simp [cleanupLoop, hn, ih]

theorem load_frame (alloc : Bool) (reads : List (Nat × Nat)) (dom : domain_t)
    (r : domain_t × Nat) (h : load alloc dom reads = some r) :
    r.1.freed = dom.freed ∧ r.1.retired = dom.retired := by
  induction reads generalizing dom with
  | nil => simp [load] at h
  | cons rd rest ih =>
    obtain ⟨val, again⟩ := rd
    unfold load at h
    cases hi : list_insert_or_append alloc dom.pointers val with
    | none => simp [hi] at h; subst h; exact ⟨rfl, rfl⟩
    | some q =>
      obtain ⟨l, node⟩ := q
      simp only [hi] at h
      by_cases ha : again = val
      · simp [ha] at h; subst h; exact ⟨rfl, rfl⟩
      · simp only [ha, if_false] at h
        split at h
        · exact ih { dom with pointers := l.set node 0 } h
        · exact ih { dom with pointers := (list_remove l val).1 } h

theorem load_of_publish (alloc : Bool) (dom : domain_t) (v : Nat) (rest : List (Nat × Nat))
    (l : HpList) (node : Nat) (h : list_insert_or_append alloc dom.pointers v = some (l, node)) :
    load alloc dom ((v, v) :: rest) = some ({ dom with pointers := l }, v) := by
  simp [load, h]

theorem load_unchanged_slot (dom : domain_t) (v : Nat) (rest : List (Nat × Nat)) :
    ∃ l node, list_insert_or_append true dom.pointers v = some (l, node) ∧
      load true dom ((v, v) :: rest) = some ({ dom with pointers := l }, v) := by
  obtain ⟨⟨l, node⟩, hr⟩ := list_insert_or_append_alloc dom.pointers v
  exact ⟨l, node, hr, load_of_publish true dom v rest l node hr⟩

theorem cleanup_ptr_cases (fuel : Nat) (alloc : Bool) (dom d : domain_t) (p : Nat)
    (flags : Int) (h : cleanup_ptr fuel alloc dom p flags = some d) :
    (list_contains dom.pointers p = false ∧ d = deallocator dom p) ∨
      (d.freed = dom.freed ∧ d.pointers = dom.pointers) := by
  rw [cleanup_ptr_eq] at h
  cases hc : list_contains dom.pointers p with
  | false => simp [hc] at h; exact Or.inl ⟨rfl, h.symm⟩
  | true =>
    cases hd : deferSet flags with
    | false => simp [hc, hd, spin_of_contains fuel _ _ hc] at h
    | true =>
      simp only [hc, hd, Bool.not_true, if_true] at h
      cases hi : list_insert_or_append alloc dom.retired p with
      | none => simp [hi] at h; subst h; exact Or.inr ⟨rfl, rfl⟩
      | some q => simp [hi] at h; subst h; exact Or.inr ⟨rfl, rfl⟩

theorem swap_frame (alloc : Bool) (dom : domain_t) (prot new_val : Nat) :
    (swap alloc dom prot new_val).1.freed = dom.freed ∧
      (swap alloc dom prot new_val).1.retired = dom.retired := by
  unfold swap
  cases hi : list_insert_or_append alloc dom.pointers new_val with
  | none => exact ⟨rfl, rfl⟩
  | some q => exact ⟨rfl, rfl⟩

/-! ## Sequences of operations -/

theorem step_safe (fuel : Nat) (w w1 : World) (op : Op) (hs : SafeTrace w.dom)
    (h : step fuel w op = some w1) : SafeTrace w1.dom := by
  cases op with
  | load alloc =>
    simp only [step, Option.map_eq_some'] at h
    obtain ⟨r, hr, rfl⟩ := h
    have := (load_frame alloc _ w.dom r hr).1
    simpa [SafeTrace, this] using hs
  | drop v =>
    simp only [step, Option.map_eq_some', drop] at h
    obtain ⟨d, hd, rfl⟩ := h
    split at hd
    · simp at hd; subst hd; exact hs
    · simp at hd
  | swap alloc new_val =>
    simp only [step, Option.some.injEq] at h
    subst h
    simpa [SafeTrace, (swap_frame alloc w.dom w.slot new_val).1] using hs
  | cleanup_ptr alloc p flags =>
    simp only [step, Option.map_eq_some'] at h
    obtain ⟨d, hd, rfl⟩ := h
    rcases cleanup_ptr_cases fuel alloc w.dom d p flags hd with ⟨hc, rfl⟩ | ⟨hf, _⟩
    · intro e he
      simp only [deallocator, List.mem_append, List.mem_singleton] at he
      rcases he with he | rfl
      · exact hs e he
      · exact hc
    · simpa [SafeTrace, hf] using hs
  | cleanup flags =>
    simp only [step, Option.map_eq_some'] at h
    obtain ⟨d, hd, rfl⟩ := h
    have := cleanup_eq fuel flags w.dom d hd
    subst this
    exact hs

theorem run_safe (fuel : Nat) (ops : List Op) (w w1 : World) (hs : SafeTrace w.dom)
    (h : run fuel w ops = some w1) : SafeTrace w1.dom := by
  induction ops generalizing w with
  | nil => simp [run] at h; subst h; exact hs
  | cons op rest ih =>
    unfold run at h
    cases hst : step fuel w op with
    | none => simp [hst] at h
    | some w2 =>
      simp only [hst] at h
      exact ih w2 (step_safe fuel w w2 op hs hst) h

/-! ## The race between `load` and `swap`, `cleanup_ptr` -/

theorem readerStep_frame (s : Sys) :
    (readerStep s).slot = s.slot ∧ (readerStep s).freed = s.freed ∧
      (readerStep s).writer = s.writer := by
  unfold readerStep
  split
  · exact ⟨rfl, rfl, rfl⟩
  · split <;> exact ⟨rfl, rfl, rfl⟩
  · split <;> exact ⟨rfl, rfl, rfl⟩
  · split <;> exact ⟨rfl, rfl, rfl⟩
  · split <;> exact ⟨rfl, rfl, rfl⟩
  · exact ⟨rfl, rfl, rfl⟩

theorem writerInv_congr (a b : Nat) (s t : Sys) (h1 : t.slot = s.slot)
    (h2 : t.freed = s.freed) (h3 : t.writer = s.writer) (h : writerInv a b s) :
    writerInv a b t := by
  unfold writerInv at h ⊢
  rw [h1, h2, h3]
  exact h

theorem writerInv_slot (a b : Nat) (s : Sys) (h : writerInv a b s) :
    s.slot = a ∨ s.slot = b := by
  unfold writerInv at h
  split at h
  · exact Or.inl h.1
  · exact Or.inl h.1
  · exact Or.inr h.1
  · exact Or.inr h.1
  · exact Or.inr h.1

theorem notPassed_of_slot (a b : Nat) (s : Sys) (k : Nat) (hab : a ≠ b)
    (h : writerInv a b s) (hs : s.slot = a) : notPassed k s.writer := by
  unfold writerInv at h
  split at h
  · rename_i e; rw [e]; trivial
  · rename_i e; rw [e]; trivial
  · exact absurd (hs.symm.trans h.1) hab
  · exact absurd (hs.symm.trans h.1) hab
  · exact absurd (hs.symm.trans h.1) hab

theorem nodeWord_set_self (l : List Nat) (i v : Nat) (h : i < l.length) :
    nodeWord (l.set i v) i = v := by
  simp [nodeWord, List.getD_eq_getElem?_getD, List.getElem?_set, h]

theorem nodeWord_set_other (l : List Nat) (i k v : Nat) (h : i ≠ k) :
    nodeWord (l.set i v) k = nodeWord l k := by
  simp [nodeWord, List.getD_eq_getElem?_getD, List.getElem?_set, h]

theorem nodeWord_append_new (l : List Nat) (v : Nat) : nodeWord (l ++ [v]) l.length = v := by
  simp [nodeWord, List.getD_eq_getElem?_getD]

theorem lt_of_nodeWord_ne (l : List Nat) (k : Nat) (h : nodeWord l k ≠ 0) : k < l.length := by
  by_contra hk
  exact h (by simp [nodeWord, List.getD_eq_getElem?_getD, List.getElem?_eq_none (not_lt.mp hk)])

theorem nodeWord_append_old (l : List Nat) (k v : Nat) (h : nodeWord l k ≠ 0) :
    nodeWord (l ++ [v]) k = nodeWord l k := by
  have hk := lt_of_nodeWord_ne l k h
  simp [nodeWord, List.getD_eq_getElem?_getD, List.getElem?_append_left hk]

theorem mem_of_nodeWord (l : List Nat) (k v : Nat) (hv : v ≠ 0) (h : nodeWord l k = v) :
    v ∈ l := by
  have hk := lt_of_nodeWord_ne l k (by rw [h]; exact hv)
  rw [nodeWord, List.getD_eq_getElem?_getD, List.getElem?_eq_getElem hk] at h
  simp at h
  rw [← h]
  exact List.getElem_mem hk

theorem readerInv_readerStep (a b : Nat) (s : Sys) (hab : a ≠ b)
    (hw : writerInv a b s) (hr : readerInv a b s) : readerInv a b (readerStep s) := by
  have hslot := writerInv_slot a b s hw
  obtain ⟨slot, chain, freed, r, w⟩ := s
  cases r with
  | start => simpa [readerStep, readerInv, cursorOk] using hslot
  | publish val p =>
    simp only [readerInv] at hr
    obtain ⟨h1, h2, h3⟩ := hr
    cases p with
    | head =>
      cases hn : chain.length with
      | zero => simp [readerStep, insStep, hn, enterIns, readerInv, cursorOk, h1]; exact h2
      | succ n => simp [readerStep, insStep, hn, enterIns, readerInv, cursorOk, h1]; exact h2
    | visit i =>
      simp only [cursorOk] at h3
      by_cases h0 : nodeWord chain i = 0
      · simp [readerStep, insStep, h0, readerInv, cursorOk, h1, h3]; exact h2
      · simp [readerStep, insStep, h0, readerInv, cursorOk, h1, h3]; exact h2
    | cas i =>
      simp only [cursorOk] at h3
      by_cases h0 : nodeWord chain i = 0
      · simp [readerStep, insStep, h0, readerInv, h1, nodeWord_set_self chain i val h3]; exact h2
      · simp [readerStep, insStep, h0, readerInv, cursorOk, h1, h3]; exact h2
    | next i =>
      simp only [cursorOk] at h3
      cases i with
      | zero => simp [readerStep, insStep, enterIns, readerInv, cursorOk, h1]; exact h2
      | succ n =>
        simp [readerStep, insStep, enterIns, readerInv, cursorOk, h1]
        exact ⟨h2, by omega⟩
    | alloc => simp [readerStep, insStep, readerInv, cursorOk, h1]; exact h2
    | link old =>
      by_cases h0 : chain.length = old
      · subst h0
        simp [readerStep, insStep, readerInv, h1, nodeWord_append_new]; exact h2
      · simp [readerStep, insStep, h0, readerInv, cursorOk, h1]; exact h2
    | ret i => exact absurd h3 (by simp [cursorOk])
  | confirm val node =>
    simp only [readerInv] at hr
    obtain ⟨h1, h2, h3⟩ := hr
    by_cases h0 : slot = val
    · subst h0
      simp only [readerStep, if_true, readerInv]
      refine ⟨h1, h2, node, h3, fun e => ?_⟩
      exact notPassed_of_slot a b _ node hab hw e
    · simp only [readerStep, h0, if_false, readerInv]
      rcases h1 with h1 | h1
      · rcases hslot with h | h
        · exact absurd (h.trans h1.symm) h0
        · exact h
      · exact absurd ((h2 h1).trans h1.symm) h0
  | clear val node =>
    simp only [readerInv] at hr
    by_cases h0 : nodeWord chain node = val
    · simp [readerStep, h0, readerInv]
    · simp [readerStep, h0, readerInv]; exact hr
  | remove val p =>
    simp only [readerInv] at hr
    cases p with
    | head =>
      cases hn : chain.length with
      | zero => simp [readerStep, remStep, hn, enterRem, readerInv]
      | succ n => simp [readerStep, remStep, hn, enterRem, readerInv]; exact hr
    | visit i =>
      by_cases h0 : nodeWord chain i = val
      · simp [readerStep, remStep, h0, readerInv]; exact hr
      · simp [readerStep, remStep, h0, readerInv]; exact hr
    | cas i =>
      by_cases h0 : nodeWord chain i = val
      · simp [readerStep, remStep, h0, readerInv]
      · simp [readerStep, remStep, h0, readerInv]; exact hr
    | next i =>
      cases i with
      | zero => simp [readerStep, remStep, enterRem, readerInv]
      | succ n => simp [readerStep, remStep, enterRem, readerInv]; exact hr
    | ret ok => simp [readerStep, remStep, readerInv]
  | returned v => simpa [readerStep] using hr

theorem writerStep_reader (b : Nat) (s : Sys) : (writerStep b s).reader = s.reader := by
  unfold writerStep
  split
  · split <;> rfl
  · rfl
  · split <;> rfl
  · rfl
  · rfl

theorem writerInv_readerStep (a b : Nat) (s : Sys) (hw : writerInv a b s) :
    writerInv a b (readerStep s) :=
  writerInv_congr a b s _ (readerStep_frame s).1 (readerStep_frame s).2.1
    (readerStep_frame s).2.2 hw

theorem insStep_chain (v : Nat) (chain : List Nat) (p : InsPc) :
    (insStep v chain p).1 = chain ∨
      (∃ i, nodeWord chain i = 0 ∧ (insStep v chain p).1 = chain.set i v) ∨
      ((insStep v chain p).1 = chain ++ [v] ∧ ∃ i, (insStep v chain p).2 = InsPc.ret i) := by
  cases p with
  | cas i =>
    by_cases h0 : nodeWord chain i = 0
    · exact Or.inr (Or.inl ⟨i, h0, by simp [insStep, h0]⟩)
    · exact Or.inl (by simp [insStep, h0])
  | link old =>
    by_cases h0 : chain.length = old
    · exact Or.inr (Or.inr ⟨by simp [insStep, h0], old, by simp [insStep, h0]⟩)
    · exact Or.inl (by simp [insStep, h0])
  | _ => exact Or.inl (by simp [insStep])

/-- The reader's invariant survives what a step of the writer may do to the
chain: nodes are only added, and a node in use keeps its word. -/
theorem readerInv_chain (a b : Nat) (s : Sys) (c : List Nat) (w : WriterPc) (ha : a ≠ 0)
    (hb : b ≠ 0) (hlen : s.chain.length ≤ c.length)
    (hkeep : ∀ k, nodeWord s.chain k ≠ 0 → nodeWord c k = nodeWord s.chain k)
    (hnp : ∀ k, notPassed k w) (hr : readerInv a b s) :
    readerInv a b { s with chain := c, writer := w } := by
  obtain ⟨slot, chain, freed, r, w0⟩ := s
  have hne : ∀ val, (val = a ∨ val = b) → val ≠ 0 := by
    rintro val (h | h) <;> rw [h] <;> assumption
  cases r with
  | start => trivial
  | publish val p =>
    simp only [readerInv] at hr ⊢
    refine ⟨hr.1, hr.2.1, ?_⟩
    have h3 := hr.2.2
    cases p <;> simp only [cursorOk] at h3 ⊢ <;> first | trivial | exact lt_of_lt_of_le h3 hlen
  | confirm val node =>
    simp only [readerInv] at hr ⊢
    refine ⟨hr.1, hr.2.1, ?_⟩
    rw [hkeep node (by rw [hr.2.2]; exact hne val hr.1)]
    exact hr.2.2
  | clear val node => exact hr
  | remove val p => exact hr
  | returned v =>
    simp only [readerInv] at hr ⊢
    obtain ⟨h1, h2, k, hk, _⟩ := hr
    refine ⟨h1, h2, k, ?_, fun _ => hnp k⟩
    rw [hkeep k (by rw [hk]; exact hne v h1)]
    exact hk

theorem chain_keep (v : Nat) (chain : List Nat) (p : InsPc) :
    chain.length ≤ (insStep v chain p).1.length ∧
      ∀ k, nodeWord chain k ≠ 0 → nodeWord (insStep v chain p).1 k = nodeWord chain k := by
  rcases insStep_chain v chain p with h | ⟨i, hi, h⟩ | ⟨h, _⟩
  · rw [h]; exact ⟨le_refl _, fun _ _ => rfl⟩
  · rw [h]
    refine ⟨by simp, fun k hk => nodeWord_set_other chain i k v ?_⟩
    rintro rfl
    exact hk hi
  · rw [h]
    exact ⟨by simp, fun k hk => nodeWord_append_old chain k v hk⟩

theorem readerInv_writerStep (a b : Nat) (s : Sys) (ha : a ≠ 0) (hb : b ≠ 0)
    (hw : writerInv a b s) (hr : readerInv a b s) : readerInv a b (writerStep b s) := by
  obtain ⟨slot, chain, freed, r, w⟩ := s
  cases w with
  | publish p =>
    have hk := chain_keep b chain p
    have key : ∀ w1, (∀ k, notPassed k w1) →
        readerInv a b ⟨slot, (insStep b chain p).1, freed, r, w1⟩ := fun w1 hw1 =>
      readerInv_chain a b ⟨slot, chain, freed, r, WriterPc.publish p⟩ _ w1 ha hb hk.1 hk.2
        hw1 hr
    simp only [writerStep]
    split
    · rename_i c node he
      have := key WriterPc.exchange (fun _ => trivial)
      rw [he] at this
      exact this
    · rename_i c q _ he
      have := key (WriterPc.publish q) (fun _ => trivial)
      rw [he] at this
      exact this
  | exchange =>
    simp only [writerStep]
    cases r with
    | start => trivial
    | publish val p => exact ⟨hr.1, fun _ => rfl, hr.2.2⟩
    | confirm val node => exact ⟨hr.1, fun _ => rfl, hr.2.2⟩
    | clear val node => rfl
    | remove val p => rfl
    | returned v =>
      obtain ⟨h1, _, k, hk, _⟩ := hr
      exact ⟨h1, fun _ => rfl, k, hk, fun _ => trivial⟩
  | test old p =>
    simp only [writerInv] at hw
    obtain ⟨_, hold, _⟩ := hw
    subst hold
    have hfr : ∀ w1, (∀ v, r ≠ LoadPc.returned v) →
        readerInv old b ⟨slot, chain, freed, r, w1⟩ := by
      intro w1 hnr
      cases r with
      | returned v => exact absurd rfl (hnr v)
      | _ => exact hr
    cases r with
    | returned v =>
      simp only [readerInv] at hr
      obtain ⟨h1, h2, k, hk, hnp⟩ := hr
      by_cases hv : v = old
      · subst hv
        have hnp := hnp rfl
        have hlt := lt_of_nodeWord_ne chain k (by rw [hk]; exact ha)
        cases p with
        | head =>
          cases hn : chain.length with
          | zero => omega
          | succ n =>
            simp only [writerStep, conStep, hn, enterCon, readerInv]
            exact ⟨Or.inl trivial, h2, k, hk, fun _ => by simp only [notPassed]; omega⟩
        | visit i =>
          simp only [notPassed] at hnp
          by_cases h0 : nodeWord chain i = v
          · simp only [writerStep, conStep, h0, if_true, readerInv]
            exact ⟨Or.inl trivial, h2, k, hk, fun _ => trivial⟩
          · simp only [writerStep, conStep, h0, if_false, readerInv]
            refine ⟨Or.inl trivial, h2, k, hk, fun _ => ?_⟩
            simp only [notPassed]
            rcases Nat.lt_or_eq_of_le hnp with h | h
            · exact h
            · rw [h] at hk; exact absurd hk h0
        | next i =>
          simp only [notPassed] at hnp
          cases i with
          | zero => omega
          | succ n =>
            simp only [writerStep, conStep, enterCon, readerInv]
            exact ⟨Or.inl trivial, h2, k, hk, fun _ => by simp only [notPassed]; omega⟩
        | ret found => exact absurd hnp (by simp [notPassed])
      · have key : ∀ w1, readerInv old b ⟨slot, chain, freed, LoadPc.returned v, w1⟩ :=
          fun w1 => ⟨h1, h2, k, hk, fun e => absurd e hv⟩
        simp only [writerStep]
        split <;> exact key _
    | _ =>
      simp only [writerStep]
      split <;> exact hfr _ (by intro v; simp)
  | free old =>
    simp only [writerInv] at hw
    obtain ⟨_, hold, _⟩ := hw
    subst hold
    simp only [writerStep]
    cases r with
    | returned v =>
      obtain ⟨h1, h2, k, hk, hnp⟩ := hr
      refine ⟨h1, h2, k, hk, fun e => ?_⟩
      exact absurd (hnp e) (by simp [notPassed])
    | _ => exact hr
  | returned => exact hr

theorem writerInv_writerStep (a b : Nat) (s : Sys) (hw : writerInv a b s) :
    writerInv a b (writerStep b s) := by
  obtain ⟨slot, chain, freed, r, w⟩ := s
  cases w with
  | publish p =>
    simp only [writerInv] at hw
    simp only [writerStep]
    split <;> exact hw
  | exchange =>
    simp only [writerInv] at hw
    exact ⟨rfl, hw.1, hw.2⟩
  | test old p =>
    simp only [writerInv] at hw
    simp only [writerStep]
    split <;> exact hw
  | free old =>
    simp only [writerInv] at hw
    simp only [writerStep, writerInv]
    exact ⟨hw.1, by rw [hw.2.2, hw.2.1]; rfl⟩
  | returned => exact hw

theorem readerCost_readerStep (a b : Nat) (s : Sys) (hr : readerInv a b s)
    (hnr : ∀ v, s.reader ≠ LoadPc.returned v) :
    readerCost b (readerStep s) + 1 ≤ readerCost b s := by
  obtain ⟨slot, chain, freed, r, w⟩ := s
  cases r with
  | start =>
    simp only [readerStep, readerCost]
    omega
  | publish val p =>
    simp only [readerInv] at hr
    have h3 := hr.2.2
    cases p with
    | head =>
      cases hn : chain.length with
      | zero => simp only [readerStep, insStep, hn, enterIns, readerCost, insCost]; omega
      | succ n => simp only [readerStep, insStep, hn, enterIns, readerCost, insCost]; omega
    | visit i =>
      by_cases h0 : nodeWord chain i = 0
      · simp only [readerStep, insStep, h0, if_true, readerCost, insCost]; omega
      · simp only [readerStep, insStep, h0, if_false, readerCost, insCost]; omega
    | cas i =>
      by_cases h0 : nodeWord chain i = 0
      · simp only [readerStep, insStep, h0, if_true, readerCost, insCost, afterPublish,
          retryCost, List.length_set]
        split <;> omega
      · simp only [readerStep, insStep, h0, if_false, readerCost, insCost]; omega
    | next i =>
      cases i with
      | zero => simp only [readerStep, insStep, enterIns, readerCost, insCost]; omega
      | succ n => simp only [readerStep, insStep, enterIns, readerCost, insCost]; omega
    | alloc => simp [readerStep, insStep, readerCost, insCost]; omega
    | link old =>
      by_cases h0 : chain.length = old
      · subst h0
        simp [readerStep, insStep, readerCost, insCost]
        omega
      · have h1 : ¬ old = chain.length := fun e => h0 e.symm
        simp [readerStep, insStep, h0, h1, readerCost, insCost]
        omega
    | ret i => exact absurd h3 (by simp [cursorOk])
  | confirm val node =>
    simp only [readerInv] at hr
    by_cases h0 : slot = val
    · simp only [readerStep, h0, if_true, readerCost, afterPublish]; omega
    · have hvb : ¬ val = b := fun e => h0 ((hr.2.1 e).trans e.symm)
      simp only [readerStep, h0, if_false, readerCost, afterPublish, hvb]; omega
  | clear val node =>
    simp only [readerInv] at hr
    subst hr
    by_cases h0 : nodeWord chain node = val
    · simp only [readerStep, h0, if_true, readerCost, insCost, afterPublish, retryCost,
        List.length_set]
      omega
    · simp only [readerStep, h0, if_false, readerCost, remCost, lastIter, retryCost]; omega
  | remove val p =>
    simp only [readerInv] at hr
    subst hr
    cases p with
    | head =>
      cases hn : chain.length with
      | zero =>
        simp only [readerStep, remStep, hn, enterRem, readerCost, remCost, lastIter, insCost,
          afterPublish, if_true]
        omega
      | succ n =>
        simp only [readerStep, remStep, hn, enterRem, readerCost, remCost]; omega
    | visit i =>
      by_cases h0 : nodeWord chain i = val
      · simp only [readerStep, remStep, h0, if_true, readerCost, remCost]; omega
      · simp only [readerStep, remStep, h0, if_false, readerCost, remCost]; omega
    | cas i =>
      by_cases h0 : nodeWord chain i = val
      · simp only [readerStep, remStep, h0, if_true, readerCost, remCost, lastIter, insCost,
          afterPublish, List.length_set]
        omega
      · simp only [readerStep, remStep, h0, if_false, readerCost, remCost]; omega
    | next i =>
      cases i with
      | zero =>
        simp only [readerStep, remStep, enterRem, readerCost, remCost, lastIter, insCost,
          afterPublish, if_true]
        omega
      | succ n => simp only [readerStep, remStep, enterRem, readerCost, remCost]; omega
    | ret ok =>
      simp only [readerStep, remStep, readerCost, remCost, lastIter, insCost, afterPublish,
        if_true]
      omega
  | returned v => exact absurd rfl (hnr v)

theorem potential_readerStep (a b : Nat) (s : Sys) (hr : readerInv a b s)
    (hnr : ∀ v, s.reader ≠ LoadPc.returned v) :
    potential b (readerStep s) + 1 ≤ potential b s := by
  have h := readerCost_readerStep a b s hr hnr
  unfold potential
  rw [(readerStep_frame s).2.2]
  omega

theorem readerCost_grow (b : Nat) (s : Sys) (c : List Nat) (w : WriterPc)
    (hc : c.length = s.chain.length + 1) :
    readerCost b { s with chain := c, writer := w } ≤ readerCost b s + 9 := by
  obtain ⟨slot, chain, freed, r, w0⟩ := s
  simp only at hc
  cases r with
  | publish val p =>
    cases p <;>
      simp only [readerCost, insCost, afterPublish, retryCost, hc] <;>
      split_ifs <;> omega
  | remove val p =>
    cases p <;> simp only [readerCost, remCost, lastIter, hc] <;> omega
  | _ =>
    simp only [readerCost, insCost, afterPublish, retryCost, hc]
    try split_ifs
    all_goals omega

theorem readerCost_same (b : Nat) (s : Sys) (c : List Nat) (w : WriterPc)
    (hc : c.length = s.chain.length) :
    readerCost b { s with chain := c, writer := w } = readerCost b s := by
  obtain ⟨slot, chain, freed, r, w0⟩ := s
  simp only at hc
  cases r <;> simp only [readerCost, hc]

theorem potential_writerStep (b : Nat) (s : Sys) :
    potential b (writerStep b s) ≤ potential b s := by
  obtain ⟨slot, chain, freed, r, w⟩ := s
  cases w with
  | publish p =>
    have hgrow := readerCost_grow b ⟨slot, chain, freed, r, WriterPc.publish p⟩
      (insStep b chain p).1
    have hsame := readerCost_same b ⟨slot, chain, freed, r, WriterPc.publish p⟩
      (insStep b chain p).1
    simp only at hgrow hsame
    rcases insStep_chain b chain p with h | ⟨i, _, h⟩ | ⟨h, i, hi⟩
    · have hl : (insStep b chain p).1.length = chain.length := by rw [h]
      simp only [writerStep, potential]
      split
      · rename_i c node he
        have := hsame WriterPc.exchange hl
        rw [he] at this
        simp only at this ⊢
        omega
      · rename_i c q _ he
        have := hsame (WriterPc.publish q) hl
        rw [he] at this
        simp only at this ⊢
        omega
    · have hl : (insStep b chain p).1.length = chain.length := by rw [h]; simp
      simp only [writerStep, potential]
      split
      · rename_i c node he
        have := hsame WriterPc.exchange hl
        rw [he] at this
        simp only at this ⊢
        omega
      · rename_i c q _ he
        have := hsame (WriterPc.publish q) hl
        rw [he] at this
        simp only at this ⊢
        omega
    · have hl : (insStep b chain p).1.length = chain.length + 1 := by rw [h]; simp
      simp only [writerStep, potential]
      split
      · rename_i c node he
        have := hgrow WriterPc.exchange hl
        rw [he] at this
        simp only at this ⊢
        omega
      · rename_i c q hq he
        rw [he] at hi
        exact absurd hi (hq i)
  | exchange =>
    simp only [writerStep, potential]
    cases r with
    | start =>
      simp only [readerCost, afterPublish, retryCost, add_zero]
      split_ifs <;> omega
    | _ => exact le_refl _
  | test old p =>
    have key : ∀ w1, readerCost b ⟨slot, chain, freed, r, w1⟩ =
        readerCost b ⟨slot, chain, freed, r, WriterPc.test old p⟩ := fun w1 =>
      readerCost_same b ⟨slot, chain, freed, r, WriterPc.test old p⟩ chain w1 rfl
    simp only [writerStep, potential]
    split <;> simp only [key, le_refl]
  | free old =>
    have key := readerCost_same b ⟨slot, chain, freed ++ [old], r, WriterPc.free old⟩ chain
      WriterPc.returned rfl
    have key2 : readerCost b ⟨slot, chain, freed ++ [old], r, WriterPc.free old⟩ =
        readerCost b ⟨slot, chain, freed, r, WriterPc.free old⟩ := by
      cases r <;> rfl
    simp only [writerStep, potential]
    simp only at key
    rw [key, key2]
  | returned => exact le_refl _

theorem raceInv_init (a b : Nat) (chain0 : List Nat) : RaceInv a b (raceInit a chain0) :=
  ⟨⟨rfl, rfl⟩, trivial⟩

theorem raceInv_readerStep (a b : Nat) (s : Sys) (hab : a ≠ b) (h : RaceInv a b s) :
    RaceInv a b (readerStep s) :=
  ⟨writerInv_readerStep a b s h.1, readerInv_readerStep a b s hab h.1 h.2⟩

theorem raceInv_writerStep (a b : Nat) (s : Sys) (ha : a ≠ 0) (hb : b ≠ 0)
    (h : RaceInv a b s) : RaceInv a b (writerStep b s) :=
  ⟨writerInv_writerStep a b s h.1, readerInv_writerStep a b s ha hb h.1 h.2⟩

theorem raceInv_exec (a b : Nat) (sched : List Tid) (s : Sys) (ha : a ≠ 0) (hb : b ≠ 0)
    (hab : a ≠ b) (h : RaceInv a b s) : RaceInv a b (exec b s sched) := by
  induction sched generalizing s with
  | nil => exact h
  | cons t rest ih =>
    cases t with
    | reader => exact ih _ (raceInv_readerStep a b s hab h)
    | writer => exact ih _ (raceInv_writerStep a b s ha hb h)

theorem exec_returned (b : Nat) (sched : List Tid) (s : Sys) (v : Nat)
    (h : s.reader = LoadPc.returned v) : (exec b s sched).reader = LoadPc.returned v := by
  induction sched generalizing s with
  | nil => exact h
  | cons t rest ih =>
    cases t with
    | reader =>
      have : readerStep s = s := by
        obtain ⟨slot, chain, freed, r, w⟩ := s
        simp only at h
        subst h
        rfl
      exact ih _ (by rw [this]; exact h)
    | writer => exact ih _ (by rw [writerStep_reader]; exact h)

theorem potential_pos (b : Nat) (s : Sys) (hnr : ∀ v, s.reader ≠ LoadPc.returned v) :
    1 ≤ potential b s := by
  obtain ⟨slot, chain, freed, r, w⟩ := s
  cases r with
  | returned v => exact absurd rfl (hnr v)
  | remove val p => simp only [potential, readerCost, lastIter]; omega
  | _ => simp only [potential, readerCost, afterPublish, retryCost]; omega

theorem potential_exec (a b : Nat) (sched : List Tid) (s : Sys) (ha : a ≠ 0) (hb : b ≠ 0)
    (hab : a ≠ b) (h : RaceInv a b s)
    (hnr : ∀ v, (exec b s sched).reader ≠ LoadPc.returned v) :
    potential b (exec b s sched) + sched.count Tid.reader ≤ potential b s := by
  induction sched generalizing s with
  | nil => simp [exec]
  | cons t rest ih =>
    cases t with
    | reader =>
      have hs : ∀ v, s.reader ≠ LoadPc.returned v := fun v e =>
        hnr v (exec_returned b (Tid.reader :: rest) s v e)
      have h1 := potential_readerStep a b s h.2 hs
      have h2 := ih (readerStep s) (raceInv_readerStep a b s hab h) hnr
      simp only [exec, List.count_cons_self] at h2 ⊢
      omega
    | writer =>
      have h1 := potential_writerStep b s
      have h2 := ih (writerStep b s) (raceInv_writerStep a b s ha hb h) hnr
      have hc : List.count Tid.reader (Tid.writer :: rest) = List.count Tid.reader rest :=
        List.count_cons_of_ne (by decide) rest
      simp only [exec, hc] at h2 ⊢
      omega

theorem potential_init (a b : Nat) (chain0 : List Nat) (hab : a ≠ b) :
    potential b (raceInit a chain0) = readerBound chain0 := by
  simp only [potential, raceInit, readerCost, insCost, afterPublish, retryCost, hab, if_false,
    readerBound]
  omega

theorem insertScan_first (l : HpList) (p : Nat) (r : HpList × Nat)
    (h : insertScan l p = some r) : ∀ j, j < r.2 → l.get? j ≠ some 0 := by
  induction l generalizing r with
  | nil => simp [insertScan] at h
  | cons x xs ih =>
    by_cases hx : x = 0
    · simp [insertScan, hx] at h
      subst h
      intro j hj
      simp at hj
    · simp only [insertScan, hx, if_false] at h
      cases hs : insertScan xs p with
      | none => simp [hs] at h
      | some q =>
        simp [hs] at h
        subst h
        intro j hj
        cases j with
        | zero => simpa using hx
        | succ n => simpa using ih q hs n (by simpa using hj)

theorem insertScan_lt (l : HpList) (p : Nat) (r : HpList × Nat)
    (h : insertScan l p = some r) : r.2 < l.length := by
  have h2 := (insertScan_spec l p r h).2.1
  by_contra hlt
  rw [List.get?_eq_none.mpr (not_lt.mp hlt)] at h2
  simp at h2

theorem list_remove_spec (l : HpList) (v : Nat) (h : list_contains l v = true) :
    ∃ i, i < l.length ∧ l.get? i = some v ∧ (∀ j, j < i → l.get? j ≠ some v) ∧
      (list_remove l v).1 = l.set i 0 := by
  induction l with
  | nil => simp [list_contains] at h
  | cons x xs ih =>
    by_cases hx : x = v
    · subst hx
      exact ⟨0, by simp, by simp, fun j hj => by simp at hj, by simp [list_remove]⟩
    · simp only [list_contains, hx, if_false] at h
      obtain ⟨i, h1, h2, h3, h4⟩ := ih h
      refine ⟨i + 1, by simpa using h1, by simpa using h2, ?_, by simp [list_remove, hx, h4]⟩
      intro j hj
      cases j with
      | zero => simpa using hx
      | succ n => simpa using h3 n (by omega)

theorem list_remove_count (l : HpList) (v : Nat) (hv : v ≠ 0) (h : list_contains l v = true) :
    (list_remove l v).1.count v + 1 = l.count v := by
  induction l with
  | nil => simp [list_contains] at h
  | cons x xs ih =>
    by_cases hx : x = v
    · subst hx
      have h0 : ¬ (0 : Nat) = x := fun e => hv e.symm
      simp [list_remove, List.count_cons, h0]
    · simp only [list_contains, hx, if_false] at h
      simp [list_remove, hx, List.count_cons, ih h]

theorem list_remove_count_other (l : HpList) (v x : Nat) (hx0 : x ≠ 0) (hxv : x ≠ v) :
    (list_remove l v).1.count x = l.count x := by
  induction l with
  | nil => rfl
  | cons y ys ih =>
    by_cases hy : y = v
    · subst hy
      have h1 : ¬ (0 : Nat) = x := fun e => hx0 e.symm
      have h2 : ¬ y = x := fun e => hxv e.symm
      simp [list_remove, List.count_cons, h1, h2]
    · simp [list_remove, hy, List.count_cons, ih]

/-! ## Counting hazards -/

theorem insertScan_count (l : HpList) (p : Nat) (r : HpList × Nat)
    (h : insertScan l p = some r) (x : Nat) (hx : x ≠ 0) :
    r.1.count x = l.count x + if x = p then 1 else 0 := by
  induction l generalizing r with
  | nil => simp [insertScan] at h
  | cons y ys ih =>
    by_cases hy : y = 0
    · subst hy
      simp [insertScan] at h
      subst h
      have h0 : ¬ (0 : Nat) = x := fun e => hx e.symm
      by_cases hp : x = p
      · subst hp; simp [List.count_cons, h0]
      · have hp2 : ¬ p = x := fun e => hp e.symm
        simp [List.count_cons, h0, hp, hp2]
    · simp only [insertScan, hy, if_false] at h
      cases hs : insertScan ys p with
      | none => simp [hs] at h
      | some q =>
        simp [hs] at h
        subst h
        simp only [List.count_cons, ih q hs]
        omega

theorem list_insert_or_append_count (alloc : Bool) (l : HpList) (p : Nat) (r : HpList × Nat)
    (h : list_insert_or_append alloc l p = some r) (x : Nat) (hx : x ≠ 0) :
    r.1.count x = l.count x + if x = p then 1 else 0 := by
  unfold list_insert_or_append at h
  cases hs : insertScan l p with
  | some q =>
    simp [hs] at h
    subst h
    exact insertScan_count l p q hs x hx
  | none =>
    simp [hs, list_append] at h
    obtain ⟨_, h⟩ := h
    subst h
    by_cases hp : x = p
    · subst hp; simp [List.count_cons]
    · have hp2 : ¬ p = x := fun e => hp e.symm
      simp [List.count_cons, hp, hp2]

theorem count_set_zero (l : HpList) (i val : Nat) (h : l.get? i = some val) (x : Nat)
    (hx : x ≠ 0) : (l.set i 0).count x + (if x = val then 1 else 0) = l.count x := by
  induction l generalizing i with
  | nil => simp at h
  | cons y ys ih =>
    cases i with
    | zero =>
      simp at h
      subst h
      have h0 : ¬ (0 : Nat) = x := fun e => hx e.symm
      by_cases hp : x = y
      · subst hp; simp [List.count_cons, h0]
      · have hp2 : ¬ y = x := fun e => hp e.symm
        simp [List.count_cons, h0, hp, hp2]
    | succ n =>
      have := ih n (by simpa using h)
      simp only [List.set_cons_succ, List.count_cons]
      omega

theorem load_count (alloc : Bool) (reads : List (Nat × Nat)) (dom : domain_t)
    (r : domain_t × Nat) (h : load alloc dom reads = some r) (x : Nat) (hx : x ≠ 0) :
    r.1.pointers.count x = dom.pointers.count x + if x = r.2 then 1 else 0 := by
  induction reads generalizing dom with
  | nil => simp [load] at h
  | cons rd rest ih =>
    obtain ⟨val, again⟩ := rd
    unfold load at h
    cases hi : list_insert_or_append alloc dom.pointers val with
    | none =>
      simp [hi] at h
      subst h
      simp [hx]
    | some q =>
      obtain ⟨l, node⟩ := q
      simp only [hi] at h
      have hcount := list_insert_or_append_count alloc _ val _ hi x hx
      have hnode := (list_insert_or_append_contains alloc _ val _ hi).2
      simp only at hcount hnode
      by_cases ha : again = val
      · simp [ha] at h
        subst h
        exact hcount
      · simp only [ha, if_false, hnode, if_true] at h
        have h1 := ih { dom with pointers := l.set node 0 } h
        have h2 := count_set_zero l node val hnode x hx
        simp only at h1
        omega

theorem swap_count (alloc : Bool) (dom : domain_t) (prot new_val x : Nat) (hx : x ≠ 0) :
    (swap alloc dom prot new_val).1.pointers.count x =
      dom.pointers.count x +
        if new_val = x ∧ (list_insert_or_append alloc dom.pointers new_val).isSome = true
        then 1 else 0 := by
  unfold swap
  cases hi : list_insert_or_append alloc dom.pointers new_val with
  | none => simp
  | some q =>
    have := list_insert_or_append_count alloc _ new_val _ hi x hx
    by_cases hp : x = new_val
    · subst hp; simpa using this
    · have hp2 : ¬ new_val = x := fun e => hp e.symm
      simpa [hp, hp2] using this

theorem step_count (fuel : Nat) (v : Nat) (hv : v ≠ 0) (w w1 : World) (op : Op)
    (h : step fuel w op = some w1) :
    w1.dom.pointers.count v + (if op = Op.drop v then 1 else 0) =
      w.dom.pointers.count v + if publishes v w op = true then 1 else 0 := by
  cases op with
  | load alloc =>
    simp only [step, Option.map_eq_some'] at h
    obtain ⟨r, hr, rfl⟩ := h
    have := load_count alloc _ w.dom r hr v hv
    simp only [publishes, hr, Option.map_some', beq_iff_eq, Option.some.injEq, reduceCtorEq,
      if_false, add_zero]
    rw [this]
    by_cases e : v = r.2
    · simp [e]
    · have e2 : ¬ r.2 = v := fun x => e x.symm
      simp [e, e2]
  | drop u =>
    simp only [step, Option.map_eq_some', drop] at h
    obtain ⟨d, hd, rfl⟩ := h
    split at hd
    · rename_i hrem
      simp at hd
      subst hd
      rw [list_remove_snd] at hrem
      by_cases hu : u = v
      · subst hu
        simpa [publishes] using list_remove_count w.dom.pointers u hv hrem
      · have hu2 : ¬ v = u := fun e => hu e.symm
        simpa [publishes, hu] using list_remove_count_other w.dom.pointers u v hv hu2
    · simp at hd
  | swap alloc new_val =>
    simp only [step, Option.some.injEq] at h
    subst h
    have := swap_count alloc w.dom w.slot new_val v hv
    simp only [publishes, Bool.and_eq_true, beq_iff_eq, reduceCtorEq, if_false, add_zero]
    exact this
  | cleanup_ptr alloc p flags =>
    simp only [step, Option.map_eq_some'] at h
    obtain ⟨d, hd, rfl⟩ := h
    have hp : d.pointers = w.dom.pointers := by
      rcases cleanup_ptr_cases fuel alloc w.dom d p flags hd with ⟨_, rfl⟩ | ⟨_, hp⟩
      · rfl
      · exact hp
    simp [publishes, hp]
  | cleanup flags =>
    simp only [step, Option.map_eq_some'] at h
    obtain ⟨d, hd, rfl⟩ := h
    have := cleanup_eq fuel flags w.dom d hd
    subst this
    simp [publishes]

theorem run_count (fuel : Nat) (v : Nat) (hv : v ≠ 0) (ops : List Op) (w w1 : World)
    (h : run fuel w ops = some w1) :
    w1.dom.pointers.count v + ops.count (Op.drop v) =
      w.dom.pointers.count v + publications fuel v w ops := by
  induction ops generalizing w with
  | nil => simp [run] at h; subst h; simp [publications]
  | cons op rest ih =>
    unfold run at h
    cases hst : step fuel w op with
    | none => simp [hst] at h
    | some w2 =>
      simp only [hst] at h
      have h1 := step_count fuel v hv w w2 op hst
      have h2 := ih w2 h
      simp only [publications, hst, List.count_cons, beq_iff_eq]
      omega

theorem cleanup_ptr_defer_keeps (fuel : Nat) (alloc : Bool) (dom : domain_t) (p : Nat)
    (h : list_contains dom.pointers p = true) :
    ∃ d, cleanup_ptr fuel alloc dom p DEFER_DEALLOC = some d ∧ d.freed = dom.freed := by
  have hd : deferSet DEFER_DEALLOC = true := by decide
  cases hr : list_insert_or_append alloc dom.retired p with
  | none => exact ⟨dom, by simp [cleanup_ptr_eq, h, hd, hr], rfl⟩
  | some q => exact ⟨{ dom with retired := q.1 }, by simp [cleanup_ptr_eq, h, hd, hr], rfl⟩

/-! ## Slots are never unlinked -/

theorem growsBy_refl (R : Nat → Nat → Prop) (hR : ∀ x, R x x) (l : HpList) :
    ∃ added kept, l = added ++ kept ∧ List.Forall₂ R l kept :=
  ⟨[], l, rfl, List.forall₂_same.mpr (fun x _ => hR x)⟩

theorem set_of_get (l : HpList) (i a : Nat) (h : l.get? i = some a) : l.set i a = l := by
  induction l generalizing i with
  | nil => simp at h
  | cons y ys ih =>
    cases i with
    | zero => simp at h; subst h; rfl
    | succ n => simp [ih n (by simpa using h)]

theorem insertScan_forall₂ (l : HpList) (p : Nat) (r : HpList × Nat)
    (h : insertScan l p = some r) : List.Forall₂ (fun x y => y = x ∨ x = 0) l r.1 := by
  induction l generalizing r with
  | nil => simp [insertScan] at h
  | cons y ys ih =>
    by_cases hy : y = 0
    · subst hy
      simp [insertScan] at h
      subst h
      exact List.Forall₂.cons (Or.inr rfl) (List.forall₂_same.mpr (fun x _ => Or.inl rfl))
    · simp only [insertScan, hy, if_false] at h
      cases hs : insertScan ys p with
      | none => simp [hs] at h
      | some q =>
        simp [hs] at h
        subst h
        exact List.Forall₂.cons (Or.inl rfl) (ih q hs)

theorem list_insert_or_append_grows (alloc : Bool) (l : HpList) (p : Nat) (r : HpList × Nat)
    (h : list_insert_or_append alloc l p = some r) :
    ∃ added kept, r.1 = added ++ kept ∧ List.Forall₂ (fun x y => y = x ∨ x = 0) l kept := by
  unfold list_insert_or_append at h
  cases hs : insertScan l p with
  | some q =>
    simp [hs] at h
    subst h
    exact ⟨[], q.1, rfl, insertScan_forall₂ l p q hs⟩
  | none =>
    simp [hs, list_append] at h
    obtain ⟨_, h⟩ := h
    subst h
    exact ⟨[p], l, rfl, List.forall₂_same.mpr (fun x _ => Or.inl rfl)⟩

theorem retry_shape (alloc : Bool) (l : HpList) (val : Nat) (r : HpList × Nat)
    (h : list_insert_or_append alloc l val = some r) :
    r.1.set r.2 0 = l ∨ r.1.set r.2 0 = 0 :: l := by
  unfold list_insert_or_append at h
  cases hs : insertScan l val with
  | some q =>
    simp [hs] at h
    subst h
    obtain ⟨_, h2, h3, _⟩ := insertScan_spec l val q hs
    left
    rw [h3, List.set_set]
    exact set_of_get l q.2 0 h2
  | none =>
    simp [hs, list_append] at h
    obtain ⟨_, h⟩ := h
    subst h
    right
    rfl

theorem load_grows (alloc : Bool) (reads : List (Nat × Nat)) (dom : domain_t)
    (r : domain_t × Nat) (h : load alloc dom reads = some r) :
    ∃ added kept, r.1.pointers = added ++ kept ∧
      List.Forall₂ (fun x y => y = x ∨ x = 0) dom.pointers kept := by
  induction reads generalizing dom with
  | nil => simp [load] at h
  | cons rd rest ih =>
    obtain ⟨val, again⟩ := rd
    unfold load at h
    cases hi : list_insert_or_append alloc dom.pointers val with
    | none =>
      simp [hi] at h
      subst h
      exact growsBy_refl _ (fun _ => Or.inl rfl) _
    | some q =>
      obtain ⟨l, node⟩ := q
      simp only [hi] at h
      have hnode := (list_insert_or_append_contains alloc _ val _ hi).2
      simp only at hnode
      by_cases ha : again = val
      · simp [ha] at h
        subst h
        exact list_insert_or_append_grows alloc _ val _ hi
      · simp only [ha, if_false, hnode, if_true] at h
        obtain ⟨added, kept, h1, h2⟩ := ih { dom with pointers := l.set node 0 } h
        simp only at h2
        rcases retry_shape alloc _ val _ hi with e | e
        · simp only at e
          rw [e] at h2
          exact ⟨added, kept, h1, h2⟩
        · simp only at e
          rw [e] at h2
          obtain ⟨y, kept1, _, h3, rfl⟩ := List.forall₂_cons_left_iff.mp h2
          exact ⟨added ++ [y], kept1, by simp [h1], h3⟩

theorem list_remove_forall₂ (l : HpList) (v : Nat) :
    List.Forall₂ (fun x y => y = x ∨ y = 0) l (list_remove l v).1 := by
  induction l with
  | nil => exact List.Forall₂.nil
  | cons y ys ih =>
    by_cases hy : y = v
    · simp only [list_remove, hy, if_true]
      exact List.Forall₂.cons (Or.inr rfl) (List.forall₂_same.mpr (fun x _ => Or.inl rfl))
    · simp only [list_remove, hy, if_false]
      exact List.Forall₂.cons (Or.inl rfl) ih

theorem grows_of_publish (l l1 : HpList)
    (h : ∃ added kept, l1 = added ++ kept ∧ List.Forall₂ (fun x y => y = x ∨ x = 0) l kept) :
    Grows l l1 := by
  obtain ⟨added, kept, h1, h2⟩ := h
  exact ⟨added, kept, h1, h2.imp (fun _ _ e => e.elim Or.inl (fun z => Or.inr (Or.inl z)))⟩

theorem grows_length (l l1 : HpList) (h : Grows l l1) : l.length ≤ l1.length := by
  obtain ⟨added, kept, h1, h2⟩ := h
  rw [h1, List.length_append, h2.length_eq]
  omega

theorem grows_refl (l : HpList) : Grows l l :=
  growsBy_refl _ (fun _ => Or.inl rfl) l

theorem step_grows (fuel : Nat) (w w1 : World) (op : Op) (h : step fuel w op = some w1) :
    Grows w.dom.pointers w1.dom.pointers ∧ Grows w.dom.retired w1.dom.retired := by
  cases op with
  | load alloc =>
    simp only [step, Option.map_eq_some'] at h
    obtain ⟨r, hr, rfl⟩ := h
    refine ⟨grows_of_publish _ _ (load_grows alloc _ w.dom r hr), ?_⟩
    rw [(load_frame alloc _ w.dom r hr).2]
    exact grows_refl _
  | drop v =>
    simp only [step, Option.map_eq_some', drop] at h
    obtain ⟨d, hd, rfl⟩ := h
    split at hd
    · simp at hd
      subst hd
      exact ⟨⟨[], _, rfl, (list_remove_forall₂ w.dom.pointers v).imp
        (fun _ _ e => e.elim Or.inl (fun z => Or.inr (Or.inr z)))⟩, grows_refl _⟩
    · simp at hd
  | swap alloc new_val =>
    simp only [step, Option.some.injEq] at h
    subst h
    simp only [swap]
    cases hi : list_insert_or_append alloc w.dom.pointers new_val with
    | none => exact ⟨grows_refl _, grows_refl _⟩
    | some q =>
      exact ⟨grows_of_publish _ _ (list_insert_or_append_grows alloc _ new_val _ hi),
        grows_refl _⟩
  | cleanup_ptr alloc p flags =>
    simp only [step, Option.map_eq_some'] at h
    obtain ⟨d, hd, rfl⟩ := h
    rw [cleanup_ptr_eq] at hd
    split at hd
    · simp at hd; subst hd; exact ⟨grows_refl _, grows_refl _⟩
    · split at hd
      · cases hi : list_insert_or_append alloc w.dom.retired p with
        | none => simp [hi] at hd; subst hd; exact ⟨grows_refl _, grows_refl _⟩
        | some q =>
          simp [hi] at hd
          subst hd
          exact ⟨grows_refl _,
            grows_of_publish _ _ (list_insert_or_append_grows alloc _ p _ hi)⟩
      · cases hsp : spin fuel w.dom.pointers p with
        | none => simp [hsp] at hd
        | some u => simp [hsp] at hd; subst hd; exact ⟨grows_refl _, grows_refl _⟩
  | cleanup flags =>
    simp only [step, Option.map_eq_some'] at h
    obtain ⟨d, hd, rfl⟩ := h
    have := cleanup_eq fuel flags w.dom d hd
    subst this
    exact ⟨grows_refl _, grows_refl _⟩

theorem run_length (fuel : Nat) (ops : List Op) (w w1 : World)
    (h : run fuel w ops = some w1) :
    w.dom.pointers.length ≤ w1.dom.pointers.length ∧
      w.dom.retired.length ≤ w1.dom.retired.length := by
  induction ops generalizing w with
  | nil => simp [run] at h; subst h; exact ⟨le_refl _, le_refl _⟩
  | cons op rest ih =>
    unfold run at h
    cases hst : step fuel w op with
    | none => simp [hst] at h
    | some w2 =>
      simp only [hst] at h
      have h1 := step_grows fuel w w2 op hst
      have h2 := ih w2 h
      exact ⟨le_trans (grows_length _ _ h1.1) h2.1, le_trans (grows_length _ _ h1.2) h2.2⟩

/-! ## Bounds on slot visits -/

theorem containsVisits_le (l : HpList) (p : Nat) : containsVisits l p ≤ l.length := by
  induction l with
  | nil => simp [containsVisits]
  | cons x xs ih =>
    simp only [containsVisits, List.length_cons]
    split <;> omega

theorem removeVisits_le (l : HpList) (p : Nat) : removeVisits l p ≤ l.length := by
  induction l with
  | nil => simp [removeVisits]
  | cons x xs ih =>
    simp only [removeVisits, List.length_cons]
    split <;> omega

theorem scanVisits_le (l : HpList) : scanVisits l ≤ l.length := by
  induction l with
  | nil => simp [scanVisits]
  | cons x xs ih =>
    simp only [scanVisits, List.length_cons]
    split <;> omega

theorem insertVisits_le (alloc : Bool) (l : HpList) : insertVisits alloc l ≤ l.length + 1 := by
  have := scanVisits_le l
  unfold insertVisits
  split <;> omega

theorem containsVisits_guarded (m : Nat) :
    containsVisits (List.replicate m 1 ++ [2]) 2 = m + 1 := by
  induction m with
  | zero => rfl
  | succ n ih => simp [List.replicate_succ, containsVisits, ih]; omega

theorem list_contains_guarded (m : Nat) :
    list_contains (List.replicate m 1 ++ [2]) 2 = true := by
  induction m with
  | zero => rfl
  | succ n ih => simp [List.replicate_succ, list_contains, ih]

theorem cleanupNode_defer (fuel : Nat) (dom : domain_t) (p : Nat) :
    cleanupNode fuel DEFER_DEALLOC dom p = some dom := by
  unfold cleanupNode
  by_cases hp : p = 0
  · simp [hp]
  · cases hc : list_contains dom.pointers p with
    | false => simp [hp, hc, claimAndFree_of_not_contains dom p hc]
    | true =>
      have hd : deferSet DEFER_DEALLOC = true := by decide
      simp [hp, hc, hd]

theorem cleanupLoopVisits_protected (fuel m k : Nat) (dom : domain_t)
    (hB : dom.pointers = List.replicate m 1 ++ [2]) :
    cleanupLoopVisits fuel DEFER_DEALLOC (List.replicate k 2) dom = some (k * (m + 2)) := by
  induction k with
  | zero => simp [cleanupLoopVisits]
  | succ n ih =>
    have hd : deferSet DEFER_DEALLOC = true := by decide
    have hc : list_contains dom.pointers 2 = true := by
      rw [hB]; exact list_contains_guarded m
    have hv : cleanupNodeVisits fuel DEFER_DEALLOC dom 2 = some (m + 2) := by
      simp only [cleanupNodeVisits, hc, hd]
      rw [hB, containsVisits_guarded m]
      simp
      omega
    simp only [List.replicate_succ, cleanupLoopVisits, cleanupNode_defer, hv, ih,
      Option.map_some', Option.some.injEq]
    rw [Nat.add_mul]
    omega

theorem cleanupNode_split (fuel : Nat) (dom : domain_t) (p : Nat) :
    ∃ n, cleanupNodeVisits fuel DEFER_DEALLOC dom p = some n ∧
      n ≤ dom.pointers.length + 1 + cleanupNodeClaimVisits DEFER_DEALLOC dom p ∧
      ((p ≠ 0 → list_contains dom.pointers p = true) →
        cleanupNodeClaimVisits DEFER_DEALLOC dom p = 0) := by
  have h1 := containsVisits_le dom.pointers p
  have hd : deferSet DEFER_DEALLOC = true := by decide
  unfold cleanupNodeVisits cleanupNodeClaimVisits
  by_cases hp : p = 0
  · exact ⟨1, by simp [hp], by omega, fun _ => by simp [hp]⟩
  · cases hc : list_contains dom.pointers p with
    | false =>
      refine ⟨1 + containsVisits dom.pointers p + removeVisits dom.pointers p,
        by simp [hp], ?_, fun h => ?_⟩
      · simp only [hp, if_false, Bool.not_false, if_true]
        omega
      · exact absurd (h hp) (by simp)
    | true =>
      refine ⟨1 + containsVisits dom.pointers p, by simp [hp, hd], ?_, fun _ => ?_⟩
      · omega
      · simp [hp, hd]

theorem cleanupLoop_split (fuel : Nat) (nodes : List Nat) (dom : domain_t) :
    ∃ n k, cleanupLoopVisits fuel DEFER_DEALLOC nodes dom = some n ∧
      cleanupLoopClaimVisits fuel DEFER_DEALLOC nodes dom = some k ∧
      n ≤ nodes.length * (dom.pointers.length + 1) + k ∧
      ((∀ q ∈ nodes, q ≠ 0 → list_contains dom.pointers q = true) → k = 0) := by
  induction nodes with
  | nil => exact ⟨0, 0, rfl, rfl, by simp, fun _ => rfl⟩
  | cons p rest ih =>
    obtain ⟨n, k, hn, hk, hle, hz⟩ := ih
    obtain ⟨m, hm, hmle, hmz⟩ := cleanupNode_split fuel dom p
    refine ⟨m + n, cleanupNodeClaimVisits DEFER_DEALLOC dom p + k,
      by simp [cleanupLoopVisits, cleanupNode_defer, hm, hn],
      by simp [cleanupLoopClaimVisits, cleanupNode_defer, hk], ?_, fun h => ?_⟩
    · simp only [List.length_cons, Nat.add_mul, Nat.one_mul]
      omega
    · have e1 := hmz (h p (List.mem_cons_self p rest))
      have e2 := hz (fun q hq => h q (List.mem_cons_of_mem p hq))
      omega

/-! ## Properties of the public interface -/

/-- C1 (no use-after-free): in every sequence of `load`, `drop`, `swap`,
`cleanup_ptr` and `cleanup` steps run from a fresh domain, every call of the
destructor is made at a moment when no slot of the hazard list holds the value
destroyed.  A sequence with a `drop` that matches no published hazard reaches
`__builtin_unreachable()` and has no run. -/
theorem no_use_after_free (fuel : Nat) (slot0 : Nat) (ops : List Op) (w : World)
    (h : run fuel { dom := domain_new, slot := slot0 } ops = some w) :
    ∀ e ∈ w.dom.freed, list_contains e.hazards e.arg = false :=
  run_safe fuel ops _ w (by intro e he; simp [domain_new] at he) h

/-- A run in which the destructor is called: install 7, swap to 8, drop the
writer's hazard on 8, load 8, retire 7. -/
theorem no_use_after_free_witness :
    run 0 { dom := domain_new, slot := 7 }
        [Op.swap true 8, Op.drop 8, Op.load true, Op.cleanup_ptr true 7 0] =
      some { dom := ⟨[8], [], [⟨7, [8]⟩]⟩, slot := 8 } ∧
    ∀ e ∈ [(⟨7, [8]⟩ : Dealloc)], list_contains e.hazards e.arg = false :=
  ⟨by decide,
   no_use_after_free 0 7 [Op.swap true 8, Op.drop 8, Op.load true, Op.cleanup_ptr true 7 0]
     { dom := ⟨[8], [], [⟨7, [8]⟩]⟩, slot := 8 } (by decide)⟩

/-- C2 (exactly-once reclamation), scenario S3 on the code: install 7, the
reader loads 7, the writer swaps to 8 and retires 7 with DEFER (parked), the
reader drops 7, then `cleanup(DEFER)` runs.  The destructor has not been called
on 7 and 7 is still in the retired list; a second `cleanup(DEFER)` changes
nothing either. -/
theorem s3_destructor_not_run :
    run 0 { dom := domain_new, slot := 7 }
        [Op.load true, Op.swap true 8, Op.cleanup_ptr true 7 DEFER_DEALLOC, Op.drop 7,
          Op.cleanup DEFER_DEALLOC] =
      some { dom := ⟨[8, 0], [7], []⟩, slot := 8 } ∧
    freedCount ⟨[8, 0], [7], []⟩ 7 = 0 ∧
    cleanup 0 ⟨[8, 0], [7], []⟩ DEFER_DEALLOC = some ⟨[8, 0], [7], []⟩ := by
  decide

/-- C3 (cleanup frees every unprotected retired entry), on the code: `cleanup`
claims with `list_remove(&dom->pointers, ptr)`, which fails whenever
`list_contains(&dom->pointers, ptr)` has just failed.  So a call of `cleanup`
that returns leaves the domain as it was, whatever the flags: no retired entry
is cleared and the destructor is not called; with DEFER it always returns. -/
theorem cleanup_reclaims_nothing (fuel : Nat) (dom : domain_t) (flags : Int) :
    (cleanup fuel dom flags = none ∨ cleanup fuel dom flags = some dom) ∧
      cleanup fuel dom DEFER_DEALLOC = some dom := by
  refine ⟨?_, cleanupLoop_defer fuel dom.retired dom⟩
  cases h : cleanup fuel dom flags with
  | none => exact Or.inl rfl
  | some d => exact Or.inr (by rw [cleanup_eq fuel flags dom d h])

/-- C4 (load returns the current value under a published hazard): when `calloc`
succeeds and both reads of the protected slot see `v`, `load` returns `v` after
one iteration, the hazard list then holds a slot with value `v`, and the
retired list and the destructor trace are untouched. -/
theorem load_returns_current (dom : domain_t) (v : Nat) (rest : List (Nat × Nat)) :
    ∃ d, load true dom ((v, v) :: rest) = some (d, v) ∧
      list_contains d.pointers v = true ∧
      d.retired = dom.retired ∧ d.freed = dom.freed := by
  obtain ⟨l, node, hi, hl⟩ := load_unchanged_slot dom v rest
  exact ⟨_, hl, (list_insert_or_append_contains true _ v _ hi).1, rfl, rfl⟩

/-- C5 (swap installs and protects): when the hazard on `new_val` can be
published, `swap` returns the old contents of the slot, leaves the slot holding
`new_val`, leaves a slot with value `new_val` in the hazard list, and does not
touch the retired list or call the destructor; a following
`cleanup_ptr(new_val, DEFER_DEALLOC)` returns without calling the destructor. -/
theorem swap_installs_and_protects (alloc : Bool) (dom : domain_t) (old new_val : Nat)
    (h : (list_insert_or_append alloc dom.pointers new_val).isSome = true) :
    (swap alloc dom old new_val).2.2 = old ∧
      (swap alloc dom old new_val).2.1 = new_val ∧
      list_contains (swap alloc dom old new_val).1.pointers new_val = true ∧
      (swap alloc dom old new_val).1.retired = dom.retired ∧
      (swap alloc dom old new_val).1.freed = dom.freed ∧
      ∀ fuel alloc2, ∃ d,
        cleanup_ptr fuel alloc2 (swap alloc dom old new_val).1 new_val DEFER_DEALLOC = some d ∧
          d.freed = dom.freed := by
  cases hi : list_insert_or_append alloc dom.pointers new_val with
  | none => simp [hi] at h
  | some q =>
    obtain ⟨l, node⟩ := q
    have hc := (list_insert_or_append_contains alloc _ new_val _ hi).1
    have hd : deferSet DEFER_DEALLOC = true := by decide
    simp only [swap, hi, true_and]
    refine ⟨hc, ?_⟩
    intro fuel alloc2
    simp only at hc
    cases hr : list_insert_or_append alloc2 dom.retired new_val with
    | none =>
      exact ⟨{ dom with pointers := l }, by simp [cleanup_ptr_eq, hc, hd, hr], rfl⟩
    | some q2 =>
      exact ⟨{ dom with pointers := l, retired := q2.1 },
        by simp [cleanup_ptr_eq, hc, hd, hr], rfl⟩

/-- A fresh domain, slot holding 7, swap to 8. -/
theorem swap_installs_and_protects_witness :
    (list_insert_or_append true domain_new.pointers 8).isSome = true ∧
    swap true domain_new 7 8 = (⟨[8], [], []⟩, 8, 7) ∧
    ((swap true domain_new 7 8).2.2 = 7 ∧
      (swap true domain_new 7 8).2.1 = 8 ∧
      list_contains (swap true domain_new 7 8).1.pointers 8 = true ∧
      (swap true domain_new 7 8).1.retired = domain_new.retired ∧
      (swap true domain_new 7 8).1.freed = domain_new.freed ∧
      ∀ fuel alloc2, ∃ d,
        cleanup_ptr fuel alloc2 (swap true domain_new 7 8).1 8 DEFER_DEALLOC = some d ∧
          d.freed = domain_new.freed) :=
  ⟨by decide, by decide, swap_installs_and_protects true domain_new 7 8 (by decide)⟩

/-- C6 (cleanup_ptr frees immediately when unprotected): when no slot of the
hazard list holds `p`, `cleanup_ptr(p, flags)` returns after exactly one call
of the destructor, made on `p`, and leaves the hazard list and the retired list
as they were, for every value of the flags. -/
theorem cleanup_ptr_frees_unprotected (fuel : Nat) (alloc : Bool) (dom : domain_t) (p : Nat)
    (flags : Int) (h : list_contains dom.pointers p = false) :
    cleanup_ptr fuel alloc dom p flags =
      some { pointers := dom.pointers, retired := dom.retired,
             freed := dom.freed ++ [{ arg := p, hazards := dom.pointers }] } := by
  simp [cleanup_ptr_eq, h, deallocator]

/-- Scenario S2: install 7, `swap(slot, 8)` returns 7, `cleanup_ptr(7, DEFER)`
calls the destructor on 7 during the call. -/
theorem cleanup_ptr_frees_unprotected_witness :
    swap true domain_new 7 8 = (⟨[8], [], []⟩, 8, 7) ∧
    list_contains [8] 7 = false ∧
    cleanup_ptr 0 true ⟨[8], [], []⟩ 7 DEFER_DEALLOC = some ⟨[8], [], [⟨7, [8]⟩]⟩ :=
  ⟨by decide, by decide,
   cleanup_ptr_frees_unprotected 0 true ⟨[8], [], []⟩ 7 DEFER_DEALLOC (by decide)⟩

/-- C7 (cleanup_ptr with DEFER parks a protected value): when a slot of the
hazard list holds `p` and `calloc` succeeds, `cleanup_ptr(p, DEFER_DEALLOC)`
returns without calling the destructor, leaves the hazard list as it was, and
afterwards a slot of the retired list holds `p`. -/
theorem cleanup_ptr_defer_parks (fuel : Nat) (dom : domain_t) (p : Nat)
    (h : list_contains dom.pointers p = true) :
    ∃ d, cleanup_ptr fuel true dom p DEFER_DEALLOC = some d ∧
      d.freed = dom.freed ∧ d.pointers = dom.pointers ∧
      list_contains d.retired p = true := by
  have hd : deferSet DEFER_DEALLOC = true := by decide
  obtain ⟨⟨l, node⟩, hr⟩ := list_insert_or_append_alloc dom.retired p
  refine ⟨{ dom with retired := l }, by simp [cleanup_ptr_eq, h, hd, hr], rfl, rfl, ?_⟩
  exact (list_insert_or_append_contains true _ p _ hr).1

/-- Scenario S3, the retire step: the reader holds 7, the slot now holds 8. -/
theorem cleanup_ptr_defer_parks_witness :
    list_contains [8, 7] 7 = true ∧
    cleanup_ptr 0 true ⟨[8, 7], [], []⟩ 7 DEFER_DEALLOC = some ⟨[8, 7], [7], []⟩ ∧
    ∃ d, cleanup_ptr 0 true ⟨[8, 7], [], []⟩ 7 DEFER_DEALLOC = some d ∧
      d.freed = [] ∧ d.pointers = [8, 7] ∧ list_contains d.retired 7 = true :=
  ⟨by decide, by decide, cleanup_ptr_defer_parks 0 ⟨[8, 7], [], []⟩ 7 (by decide)⟩

/-- C8 (load/drop round trip): for a slot holding `v ≠ 0`, whenever the hazard
can be published (an empty slot exists or `calloc` succeeds), `load` returns
`v`, the following `drop(v)` returns, and the multiset of non-zero values held
in the hazard list is then what it was before the `load`; the retired list and
the destructor trace are untouched.  If the hazard list had no non-zero value
before (a fresh domain has no slot at all), every slot holds 0 after the
pair. -/
theorem load_drop_round_trip (alloc : Bool) (dom : domain_t) (v : Nat)
    (rest : List (Nat × Nat)) (hv : v ≠ 0)
    (hpub : (list_insert_or_append alloc dom.pointers v).isSome = true) :
    ∃ d1 d2, load alloc dom ((v, v) :: rest) = some (d1, v) ∧ drop d1 v = some d2 ∧
      (members d2.pointers : Multiset Nat) = (members dom.pointers : Multiset Nat) ∧
      d2.retired = dom.retired ∧ d2.freed = dom.freed ∧
      (members dom.pointers = [] → ∀ x ∈ d2.pointers, x = 0) := by
  cases hi : list_insert_or_append alloc dom.pointers v with
  | none => simp [hi] at hpub
  | some q =>
    obtain ⟨l, node⟩ := q
    have hl := load_of_publish alloc dom v rest l node hi
    have hc := (list_insert_or_append_contains alloc _ v _ hi).1
    simp only at hc
    have hperm : (members (list_remove l v).1).Perm (members dom.pointers) :=
      List.Perm.cons_inv
        ((members_list_remove l v hv hc).trans
          (members_list_insert_or_append alloc _ v hv _ hi))
    refine ⟨_, { dom with pointers := (list_remove l v).1 }, hl, ?_, ?_, rfl, rfl, ?_⟩
    · simp [drop, list_remove_snd, hc]
    · exact Multiset.coe_eq_coe.mpr hperm
    · intro hnil x hx
      by_contra hx0
      have hm : x ∈ members (list_remove l v).1 := by
        simp [members, hx0]
        exact hx
      have := hperm.mem_iff.mp hm
      simp [hnil] at this

/-- Scenario S1: a fresh domain, slot holding 7. -/
theorem load_drop_round_trip_witness :
    (7 : Nat) ≠ 0 ∧ (list_insert_or_append true domain_new.pointers 7).isSome = true ∧
    load true domain_new [(7, 7)] = some (⟨[7], [], []⟩, 7) ∧
    drop ⟨[7], [], []⟩ 7 = some ⟨[0], [], []⟩ ∧
    ∃ d1 d2, load true domain_new [(7, 7)] = some (d1, 7) ∧ drop d1 7 = some d2 ∧
      (members d2.pointers : Multiset Nat) = (members domain_new.pointers : Multiset Nat) ∧
      d2.retired = domain_new.retired ∧ d2.freed = domain_new.freed ∧
      (members domain_new.pointers = [] → ∀ x ∈ d2.pointers, x = 0) :=
  ⟨by decide, by decide, by decide, by decide,
   load_drop_round_trip true domain_new 7 [] (by decide) (by decide)⟩

/-- C9 (allocation failure is atomic): when the hazard list has no empty slot
and `calloc` fails, `swap` returns 0 and leaves the protected slot and the
domain (hazard list, retired list, destructor trace) as they were, and `load`
returns 0 from its first iteration with the domain as it was. -/
theorem alloc_failure_atomic (dom : domain_t) (prot new_val : Nat)
    (h : list_contains dom.pointers 0 = false) :
    swap false dom prot new_val = (dom, prot, 0) ∧
      ∀ rd rest, load false dom (rd :: rest) = some (dom, 0) := by
  refine ⟨by simp [swap, list_insert_or_append_fail _ _ h], ?_⟩
  intro rd rest
  obtain ⟨val, again⟩ := rd
  simp [load, list_insert_or_append_fail _ _ h]

/-- A hazard list whose only slot is in use, slot holding 7. -/
theorem alloc_failure_atomic_witness :
    list_contains [7] 0 = false ∧
    swap false ⟨[7], [5], []⟩ 7 8 = (⟨[7], [5], []⟩, 7, 0) ∧
    ∀ rd rest, load false ⟨[7], [5], []⟩ (rd :: rest) = some (⟨[7], [5], []⟩, 0) :=
  ⟨by decide, (alloc_failure_atomic ⟨[7], [5], []⟩ 7 8 (by decide)).1,
   (alloc_failure_atomic ⟨[7], [5], []⟩ 7 8 (by decide)).2⟩

/-- C10 (load race with retire, S6): the slot holds `a`, the reader runs `load`
and the writer runs `swap(slot, b)` followed by `cleanup_ptr(a, 0)`, with the
atomic steps of the two interleaved in any order.  In every state reached: a
reader that has returned has returned `a` or `b` and a hazard slot holds the
value returned; if it returned `b` the slot had been swapped; if it returned
`a` the destructor has not run and the writer has not returned from
`cleanup_ptr`.  So whenever the destructor has run on `a` the reader has not
returned `a`, now or later.  And the reader does return: under every schedule
that gives it `readerBound chain0` steps (it retries at most once). -/
theorem load_race_with_retire (a b : Nat) (chain0 : List Nat) (sched : List Tid)
    (ha : a ≠ 0) (hb : b ≠ 0) (hab : a ≠ b) :
    (∀ v, (exec b (raceInit a chain0) sched).reader = LoadPc.returned v →
        (v = a ∨ v = b) ∧ v ∈ (exec b (raceInit a chain0) sched).chain ∧
        (v = b → (exec b (raceInit a chain0) sched).slot = b) ∧
        (v = a → a ∉ (exec b (raceInit a chain0) sched).freed ∧
          (exec b (raceInit a chain0) sched).writer ≠ WriterPc.returned)) ∧
    (a ∈ (exec b (raceInit a chain0) sched).freed →
        (exec b (raceInit a chain0) sched).reader ≠ LoadPc.returned a) ∧
    (readerBound chain0 ≤ sched.count Tid.reader →
        ∃ v, (exec b (raceInit a chain0) sched).reader = LoadPc.returned v) := by
  have hinv := raceInv_exec a b sched _ ha hb hab (raceInv_init a b chain0)
  have hsafe : ∀ v, (exec b (raceInit a chain0) sched).reader = LoadPc.returned v →
      (v = a ∨ v = b) ∧ v ∈ (exec b (raceInit a chain0) sched).chain ∧
      (v = b → (exec b (raceInit a chain0) sched).slot = b) ∧
      (v = a → a ∉ (exec b (raceInit a chain0) sched).freed ∧
        (exec b (raceInit a chain0) sched).writer ≠ WriterPc.returned) := by
    intro v hv
    obtain ⟨hw, hr⟩ := hinv
    generalize exec b (raceInit a chain0) sched = s at hv hw hr ⊢
    obtain ⟨slot, chain, freed, r, w⟩ := s
    simp only at hv
    subst hv
    simp only [readerInv] at hr
    obtain ⟨h1, h2, k, hk, hnp⟩ := hr
    have hv0 : v ≠ 0 := by rcases h1 with h | h <;> rw [h] <;> assumption
    refine ⟨h1, mem_of_nodeWord chain k v hv0 hk, h2, fun e => ?_⟩
    have hnp := hnp e
    cases w with
    | publish p => simp only [writerInv] at hw; simp [hw.2]
    | exchange => simp only [writerInv] at hw; simp [hw.2]
    | test old p => simp only [writerInv] at hw; simp [hw.2.2]
    | free old => exact absurd hnp (by simp [notPassed])
    | returned => exact absurd hnp (by simp [notPassed])
  refine ⟨hsafe, fun hf hret => ((hsafe a hret).2.2.2 rfl).1 hf, fun hcount => ?_⟩
  by_contra hno
  have hnr : ∀ v, (exec b (raceInit a chain0) sched).reader ≠ LoadPc.returned v :=
    fun v e => hno ⟨v, e⟩
  have h1 := potential_exec a b sched _ ha hb hab (raceInv_init a b chain0) hnr
  have h2 := potential_pos b _ hnr
  rw [potential_init a b chain0 hab] at h1
  omega

/-- A race on a fresh domain, `a = 1` and `b = 2`: the reader reads 1, the
writer then runs to the end and destroys 1, the reader retries and returns
2. -/
theorem load_race_with_retire_witness :
    (1 : Nat) ≠ 0 ∧ (2 : Nat) ≠ 0 ∧ (1 : Nat) ≠ 2 ∧
    exec 2 (raceInit 1 []) (Tid.reader :: List.replicate 9 Tid.writer ++
        List.replicate 27 Tid.reader) =
      { slot := 2, chain := [2, 2], freed := [1], reader := LoadPc.returned 2,
        writer := WriterPc.returned } ∧
    ((∀ v, (exec 2 (raceInit 1 []) (Tid.reader :: List.replicate 9 Tid.writer ++
          List.replicate 27 Tid.reader)).reader = LoadPc.returned v →
        (v = 1 ∨ v = 2) ∧
        v ∈ (exec 2 (raceInit 1 []) (Tid.reader :: List.replicate 9 Tid.writer ++
          List.replicate 27 Tid.reader)).chain ∧
        (v = 2 → (exec 2 (raceInit 1 []) (Tid.reader :: List.replicate 9 Tid.writer ++
          List.replicate 27 Tid.reader)).slot = 2) ∧
        (v = 1 → 1 ∉ (exec 2 (raceInit 1 []) (Tid.reader :: List.replicate 9 Tid.writer ++
            List.replicate 27 Tid.reader)).freed ∧
          (exec 2 (raceInit 1 []) (Tid.reader :: List.replicate 9 Tid.writer ++
            List.replicate 27 Tid.reader)).writer ≠ WriterPc.returned)) ∧
    (1 ∈ (exec 2 (raceInit 1 []) (Tid.reader :: List.replicate 9 Tid.writer ++
          List.replicate 27 Tid.reader)).freed →
        (exec 2 (raceInit 1 []) (Tid.reader :: List.replicate 9 Tid.writer ++
          List.replicate 27 Tid.reader)).reader ≠ LoadPc.returned 1) ∧
    (readerBound [] ≤ (Tid.reader :: List.replicate 9 Tid.writer ++
          List.replicate 27 Tid.reader).count Tid.reader →
        ∃ v, (exec 2 (raceInit 1 []) (Tid.reader :: List.replicate 9 Tid.writer ++
          List.replicate 27 Tid.reader)).reader = LoadPc.returned v)) :=
  ⟨by decide, by decide, by decide, by decide,
   load_race_with_retire 1 2 [] (Tid.reader :: List.replicate 9 Tid.writer ++
     List.replicate 27 Tid.reader) (by decide) (by decide) (by decide)⟩

/-- C12 (cleanup(DEFER) skips protected entries): `cleanup(DEFER_DEALLOC)`
returns with the hazard list as it was, and every non-zero entry of the retired
list that a hazard slot holds is still in the retired list, with no destructor
call made on it during the call. -/
theorem cleanup_defer_skips_protected (fuel : Nat) (dom : domain_t) :
    ∃ d, cleanup fuel dom DEFER_DEALLOC = some d ∧ d.pointers = dom.pointers ∧
      ∀ p, p ≠ 0 → list_contains dom.retired p = true →
        list_contains dom.pointers p = true →
        list_contains d.retired p = true ∧ freedCount d p = freedCount dom p :=
  ⟨dom, cleanupLoop_defer fuel dom.retired dom, rfl, fun _ _ hC _ => ⟨hC, rfl⟩⟩

/-- Scenario S3 before the reader drops: 7 is retired and still protected. -/
theorem cleanup_defer_skips_protected_witness :
    cleanup 0 ⟨[8, 7], [7], []⟩ DEFER_DEALLOC = some ⟨[8, 7], [7], []⟩ ∧
    ∃ d, cleanup 0 ⟨[8, 7], [7], []⟩ DEFER_DEALLOC = some d ∧ d.pointers = [8, 7] ∧
      ∀ p, p ≠ 0 → list_contains [7] p = true → list_contains [8, 7] p = true →
        list_contains d.retired p = true ∧ freedCount d p = freedCount ⟨[8, 7], [7], []⟩ p :=
  ⟨by decide, cleanup_defer_skips_protected 0 ⟨[8, 7], [7], []⟩⟩

/-- C13 (insert_or_append reuses before it grows): if some slot holds 0,
`list_insert_or_append(head, v)` writes `v` into the first such slot in
traversal order and returns it, the list being otherwise as before (same
slots, same order, same other values); if no slot holds 0 and `calloc`
succeeds, the list afterwards is the old list behind one new head slot holding
`v`, which is the slot returned.  Whenever a slot is returned it holds `v`, so
`list_contains(head, v)` is true afterwards. -/
theorem insert_reuses_before_growing (alloc : Bool) (l : HpList) (v : Nat) :
    (list_contains l 0 = true →
      ∃ i, i < l.length ∧ l.get? i = some 0 ∧ (∀ j, j < i → l.get? j ≠ some 0) ∧
        list_insert_or_append alloc l v = some (l.set i v, i)) ∧
    (list_contains l 0 = false → list_insert_or_append true l v = some (v :: l, 0)) ∧
    (∀ r, list_insert_or_append alloc l v = some r →
      list_contains r.1 v = true ∧ r.1.get? r.2 = some v) := by
  refine ⟨fun h => ?_, fun h => ?_, fun r hr => list_insert_or_append_contains alloc l v r hr⟩
  · obtain ⟨r, hr⟩ := insertScan_some_of_empty l v h
    obtain ⟨_, h2, h3, _⟩ := insertScan_spec l v r hr
    refine ⟨r.2, insertScan_lt l v r hr, h2, insertScan_first l v r hr, ?_⟩
    simp [list_insert_or_append, hr, ← h3]
  · simp [list_insert_or_append, insertScan_none_of_no_empty l v h, list_append]

/-- A list whose second slot is the first empty one, and a full list. -/
theorem insert_reuses_before_growing_witness :
    list_contains [7, 0, 0] 0 = true ∧ list_contains [7, 8] 0 = false ∧
    list_insert_or_append false [7, 0, 0] 9 = some ([7, 9, 0], 1) ∧
    list_insert_or_append true [7, 8] 9 = some ([9, 7, 8], 0) ∧
    (∃ i, i < [7, 0, 0].length ∧ [7, 0, 0].get? i = some 0 ∧
      (∀ j, j < i → [7, 0, 0].get? j ≠ some 0) ∧
      list_insert_or_append false [7, 0, 0] 9 = some ([7, 0, 0].set i 9, i)) :=
  ⟨by decide, by decide, by decide, by decide,
   (insert_reuses_before_growing false [7, 0, 0] 9).1 (by decide)⟩

/-- C14 (remove is a logical delete of one occurrence): for `v ≠ 0`,
`list_remove(head, v)` returns true exactly when `list_contains(head, v)` was
true; then the first slot holding `v` in traversal order holds 0 afterwards,
the list is otherwise as before, and the number of slots holding `v` has
dropped by exactly one; when it returns false the list is unchanged. -/
theorem remove_is_logical_delete (l : HpList) (v : Nat) (hv : v ≠ 0) :
    (list_remove l v).2 = list_contains l v ∧
    (list_contains l v = true →
      ∃ i, i < l.length ∧ l.get? i = some v ∧ (∀ j, j < i → l.get? j ≠ some v) ∧
        (list_remove l v).1 = l.set i 0 ∧
        (list_remove l v).1.count v + 1 = l.count v) ∧
    (list_contains l v = false → (list_remove l v).1 = l) := by
  refine ⟨list_remove_snd l v, fun h => ?_, fun h => ?_⟩
  · obtain ⟨i, h1, h2, h3, h4⟩ := list_remove_spec l v h
    exact ⟨i, h1, h2, h3, h4, list_remove_count l v hv h⟩
  · rw [list_remove_of_not_contains l v h]

/-- A list holding 7 twice: only the first occurrence is cleared. -/
theorem remove_is_logical_delete_witness :
    (7 : Nat) ≠ 0 ∧ list_remove [8, 7, 0, 7] 7 = ([8, 0, 0, 7], true) ∧
    list_remove [8, 0] 7 = ([8, 0], false) ∧
    ((list_remove [8, 7, 0, 7] 7).2 = list_contains [8, 7, 0, 7] 7 ∧
    (list_contains [8, 7, 0, 7] 7 = true →
      ∃ i, i < [8, 7, 0, 7].length ∧ [8, 7, 0, 7].get? i = some 7 ∧
        (∀ j, j < i → [8, 7, 0, 7].get? j ≠ some 7) ∧
        (list_remove [8, 7, 0, 7] 7).1 = [8, 7, 0, 7].set i 0 ∧
        (list_remove [8, 7, 0, 7] 7).1.count 7 + 1 = [8, 7, 0, 7].count 7) ∧
    (list_contains [8, 7, 0, 7] 7 = false → (list_remove [8, 7, 0, 7] 7).1 = [8, 7, 0, 7])) :=
  ⟨by decide, by decide, by decide, remove_is_logical_delete [8, 7, 0, 7] 7 (by decide)⟩

/-- C15 (hazards are counted as a multiset): for `v ≠ 0`, a `load` that
returns `v` (whatever its reads of the slot were) and a `swap` that installs
`v` each raise the number of hazard slots holding `v` by exactly one, and a
`drop(v)` that returns lowers it by exactly one; none of them changes the
number of slots holding another non-zero value.  Along every run the count of
`v` is the initial count plus the publications of `v` minus the `drop(v)`
steps; so when there were more publications than drops a hazard slot still
holds `v` and `cleanup_ptr(v, DEFER_DEALLOC)` returns without calling the
destructor. -/
theorem hazards_counted_as_multiset (v : Nat) (hv : v ≠ 0) :
    (∀ alloc dom reads d, load alloc dom reads = some (d, v) →
      d.pointers.count v = dom.pointers.count v + 1 ∧
      ∀ x, x ≠ 0 → x ≠ v → d.pointers.count x = dom.pointers.count x) ∧
    (∀ alloc dom prot, (list_insert_or_append alloc dom.pointers v).isSome = true →
      (swap alloc dom prot v).1.pointers.count v = dom.pointers.count v + 1 ∧
      ∀ x, x ≠ 0 → x ≠ v →
        (swap alloc dom prot v).1.pointers.count x = dom.pointers.count x) ∧
    (∀ dom d, drop dom v = some d →
      d.pointers.count v + 1 = dom.pointers.count v ∧
      ∀ x, x ≠ 0 → x ≠ v → d.pointers.count x = dom.pointers.count x) ∧
    (∀ fuel w ops w1, run fuel w ops = some w1 →
      w1.dom.pointers.count v + ops.count (Op.drop v) =
        w.dom.pointers.count v + publications fuel v w ops) ∧
    (∀ fuel w ops w1, run fuel w ops = some w1 →
      ops.count (Op.drop v) < publications fuel v w ops →
      list_contains w1.dom.pointers v = true ∧
      ∀ fuel2 alloc, ∃ d,
        cleanup_ptr fuel2 alloc w1.dom v DEFER_DEALLOC = some d ∧ d.freed = w1.dom.freed) := by
  refine ⟨?_, ?_, ?_, ?_, ?_⟩
  · intro alloc dom reads d h
    refine ⟨by simpa using load_count alloc reads dom _ h v hv, fun x hx hxv => ?_⟩
    simpa [hxv] using load_count alloc reads dom _ h x hx
  · intro alloc dom prot h
    refine ⟨by simpa [h] using swap_count alloc dom prot v v hv, fun x hx hxv => ?_⟩
    have hxv2 : ¬ v = x := fun e => hxv e.symm
    simpa [hxv2] using swap_count alloc dom prot v x hx
  · intro dom d h
    simp only [drop] at h
    split at h
    · rename_i hrem
      simp at h
      subst h
      rw [list_remove_snd] at hrem
      exact ⟨list_remove_count dom.pointers v hv hrem,
        fun x hx hxv => list_remove_count_other dom.pointers v x hx hxv⟩
    · simp at h
  · intro fuel w ops w1 h
    exact run_count fuel v hv ops w w1 h
  · intro fuel w ops w1 h hlt
    have hc := run_count fuel v hv ops w w1 h
    have hpos : 0 < w1.dom.pointers.count v := by omega
    have hmem : list_contains w1.dom.pointers v = true :=
      (list_contains_iff _ _).mpr (List.count_pos_iff.mp hpos)
    exact ⟨hmem, fun fuel2 alloc => cleanup_ptr_defer_keeps fuel2 alloc w1.dom v hmem⟩

/-- Two publications of 7 (a `load` and a `swap`) and one `drop(7)`: a hazard
slot still holds 7 and retiring 7 with DEFER does not destroy it. -/
theorem hazards_counted_as_multiset_witness :
    (7 : Nat) ≠ 0 ∧
    run 0 ⟨domain_new, 7⟩ [Op.load true, Op.swap true 7, Op.drop 7] =
      some ⟨⟨[0, 7], [], []⟩, 7⟩ ∧
    publications 0 7 ⟨domain_new, 7⟩ [Op.load true, Op.swap true 7, Op.drop 7] = 2 ∧
    (list_contains [0, 7] 7 = true ∧
      ∀ fuel2 alloc, ∃ d,
        cleanup_ptr fuel2 alloc ⟨[0, 7], [], []⟩ 7 DEFER_DEALLOC = some d ∧ d.freed = []) :=
  ⟨by decide, by decide, by decide,
   (hazards_counted_as_multiset 7 (by decide)).2.2.2.2 0 ⟨domain_new, 7⟩
     [Op.load true, Op.swap true 7, Op.drop 7] ⟨⟨[0, 7], [], []⟩, 7⟩ (by decide) (by decide)⟩

/-- C16 (slot growth is monotone): every operation `load`, `drop`, `swap`,
`cleanup_ptr`, `cleanup` that returns, with any arguments and flags, leaves
each of the hazard list and the retired list as the old list behind zero or
more added slots: every old slot is still there in the same order (its word
unchanged, or published into, or cleared).  This holds for `load` whatever its
reads of the slot were.  So the number of slots of either list never goes down,
over one operation or over a run, while the number of non-zero words can. -/
theorem slot_growth_monotone :
    (∀ fuel w op w1, step fuel w op = some w1 →
      Grows w.dom.pointers w1.dom.pointers ∧ Grows w.dom.retired w1.dom.retired) ∧
    (∀ alloc dom reads r, load alloc dom reads = some r →
      Grows dom.pointers r.1.pointers ∧ Grows dom.retired r.1.retired) ∧
    (∀ l l1, Grows l l1 → l.length ≤ l1.length) ∧
    (∀ fuel w ops w1, run fuel w ops = some w1 →
      w.dom.pointers.length ≤ w1.dom.pointers.length ∧
        w.dom.retired.length ≤ w1.dom.retired.length) ∧
    (∃ dom d, drop dom 7 = some d ∧ d.pointers.length = dom.pointers.length ∧
      (members d.pointers).length < (members dom.pointers).length) := by
  refine ⟨fun fuel w op w1 h => step_grows fuel w w1 op h, ?_, grows_length,
    fun fuel w ops w1 h => run_length fuel ops w w1 h,
    ⟨⟨[8, 7], [], []⟩, ⟨[8, 0], [], []⟩, by decide, by decide, by decide⟩⟩
  intro alloc dom reads r h
  refine ⟨grows_of_publish _ _ (load_grows alloc reads dom r h), ?_⟩
  rw [(load_frame alloc reads dom r h).2]
  exact grows_refl _

/-- A `swap` on a full hazard list adds a slot in front and a `drop` clears
one in place. -/
theorem slot_growth_monotone_witness :
    step 0 ⟨⟨[7], [], []⟩, 7⟩ (Op.swap true 8) = some ⟨⟨[8, 7], [], []⟩, 8⟩ ∧
    step 0 ⟨⟨[8, 7], [], []⟩, 8⟩ (Op.drop 7) = some ⟨⟨[8, 0], [], []⟩, 8⟩ ∧
    Grows [7] [8, 7] ∧ Grows [8, 7] [8, 0] :=
  ⟨by decide, by decide,
   (slot_growth_monotone.1 0 ⟨⟨[7], [], []⟩, 7⟩ (Op.swap true 8) ⟨⟨[8, 7], [], []⟩, 8⟩
     (by decide)).1,
   (slot_growth_monotone.1 0 ⟨⟨[8, 7], [], []⟩, 8⟩ (Op.drop 7) ⟨⟨[8, 0], [], []⟩, 8⟩
     (by decide)).1⟩

/-- C17 (progress under no contention), against the code: the slot visits of
`cleanup(DEFER_DEALLOC)` are not bounded by any constant times `|B| + |C| + 1`.
With `2 * c + 1` hazard slots holding 1 in front of one holding 2, and
`2 * c + 1` retired entries holding 2, every retired entry is protected and is
skipped, yet the call reads `(2 * c + 1) * (2 * c + 3)` slots: the hazard test
of each retired entry walks the whole hazard list. -/
theorem cleanup_visits_not_linear :
    ¬ ∃ c : Nat, ∀ (fuel : Nat) (dom : domain_t), ∃ n,
      cleanupVisits fuel dom DEFER_DEALLOC = some n ∧
        n ≤ c * (dom.pointers.length + dom.retired.length + 1) := by
  rintro ⟨c, h⟩
  obtain ⟨n, hn, hle⟩ :=
    h 0 { pointers := List.replicate (2 * c + 1) 1 ++ [2],
          retired := List.replicate (2 * c + 1) 2, freed := [] }
  rw [cleanupVisits, cleanupLoopVisits_protected 0 (2 * c + 1) (2 * c + 1) _ rfl] at hn
  simp only [Option.some.injEq] at hn
  subst hn
  simp only [List.length_replicate, List.length_append, List.length_singleton] at hle
  have e1 : (2 * c + 1) * (2 * c + 1 + 2) = c * (4 * c + 4) + (4 * c + 3) := by ring
  have e2 : c * (2 * c + 1 + 1 + (2 * c + 1) + 1) = c * (4 * c + 4) := by ring
  rw [e1, e2] at hle
  omega

/-- C17 (progress under no contention), as amended: with the slot not modified
during the call, `load` returns after exactly one iteration and at most
`|B| + 1` slot visits; `swap` makes at most `|B| + 1`;
`cleanup_ptr(p, DEFER_DEALLOC)` returns after at most `|B| + |C| + 1`;
`cleanup(DEFER_DEALLOC)` returns for every domain, and its slot visits are at
most `|C| * (|B| + 1)` for walking the retired list and testing each entry
against the hazard list, plus the visits of its claim steps, of which there are
none when every non-zero retired entry is protected.  Here `|B|` and `|C|` are
the numbers of slots of the hazard list and of the retired list, and the bounds
hold whether or not `calloc` succeeds. -/
theorem progress_no_contention (fuel : Nat) (alloc : Bool) (dom : domain_t) (v p : Nat)
    (rest : List (Nat × Nat)) :
    (∃ r n, load alloc dom ((v, v) :: rest) = some r ∧
      loadVisits alloc dom ((v, v) :: rest) = some (n, 1) ∧ n ≤ dom.pointers.length + 1) ∧
    swapVisits alloc dom ≤ dom.pointers.length + 1 ∧
    (∃ d n, cleanup_ptr fuel alloc dom p DEFER_DEALLOC = some d ∧
      cleanup_ptrVisits fuel alloc dom p DEFER_DEALLOC = some n ∧
      n ≤ dom.pointers.length + dom.retired.length + 1) ∧
    (∃ d n k, cleanup fuel dom DEFER_DEALLOC = some d ∧
      cleanupVisits fuel dom DEFER_DEALLOC = some n ∧
      cleanupClaimVisits fuel dom DEFER_DEALLOC = some k ∧
      n ≤ dom.retired.length * (dom.pointers.length + 1) + k ∧
      ((∀ q ∈ dom.retired, q ≠ 0 → list_contains dom.pointers q = true) → k = 0)) := by
  have hd : deferSet DEFER_DEALLOC = true := by decide
  have hB := insertVisits_le alloc dom.pointers
  have hC := insertVisits_le alloc dom.retired
  have hcon := containsVisits_le dom.pointers p
  refine ⟨?_, hB, ?_, ?_⟩
  · cases hi : list_insert_or_append alloc dom.pointers v with
    | none => exact ⟨(dom, 0), _, by simp [load, hi], by simp [loadVisits, hi], hB⟩
    | some q =>
      exact ⟨({ dom with pointers := q.1 }, v), _, by simp [load, hi],
        by simp [loadVisits, hi], hB⟩
  · cases hc : list_contains dom.pointers p with
    | false =>
      exact ⟨deallocator dom p, containsVisits dom.pointers p, by simp [cleanup_ptr_eq, hc],
        by simp [cleanup_ptrVisits, hc], by omega⟩
    | true =>
      obtain ⟨d, hd1, _⟩ := cleanup_ptr_defer_keeps fuel alloc dom p hc
      exact ⟨d, containsVisits dom.pointers p + insertVisits alloc dom.retired, hd1,
        by simp [cleanup_ptrVisits, hc, hd], by omega⟩
  · obtain ⟨n, k, hn, hk, hle, hz⟩ := cleanupLoop_split fuel dom.retired dom
    exact ⟨dom, n, k, cleanupLoop_defer fuel dom.retired dom, hn, hk, hle, hz⟩

/-- Three hazard slots, the last one holding 2, and three retired entries
holding 2, all protected: `cleanup` reads 12 slots and makes no claim step;
`load` reads 4 and `cleanup_ptr` 5. -/
theorem progress_no_contention_witness :
    cleanupVisits 0 ⟨[1, 1, 2], [2, 2, 2], []⟩ DEFER_DEALLOC = some 12 ∧
    cleanupClaimVisits 0 ⟨[1, 1, 2], [2, 2, 2], []⟩ DEFER_DEALLOC = some 0 ∧
    loadVisits true ⟨[1, 1, 2], [2, 2, 2], []⟩ [(7, 7)] = some (4, 1) ∧
    cleanup_ptrVisits 0 true ⟨[1, 1, 2], [2, 2, 2], []⟩ 1 DEFER_DEALLOC = some 5 ∧
    (∃ d n k, cleanup 0 ⟨[1, 1, 2], [2, 2, 2], []⟩ DEFER_DEALLOC = some d ∧
      cleanupVisits 0 ⟨[1, 1, 2], [2, 2, 2], []⟩ DEFER_DEALLOC = some n ∧
      cleanupClaimVisits 0 ⟨[1, 1, 2], [2, 2, 2], []⟩ DEFER_DEALLOC = some k ∧
      n ≤ 3 * (3 + 1) + k ∧
      ((∀ q ∈ [2, 2, 2], q ≠ 0 → list_contains [1, 1, 2] q = true) → k = 0)) :=
  ⟨by decide, by decide, by decide, by decide,
   (progress_no_contention 0 true ⟨[1, 1, 2], [2, 2, 2], []⟩ 7 1 []).2.2.2⟩

/-- C18 (a 0 result from `swap` does not identify failure): whenever the slot
holds 0 and `calloc` succeeds, `swap(slot, new_val)` returns 0 although the
slot now holds `new_val` and a hazard slot holds `new_val`; whenever the hazard
list has no empty slot and `calloc` fails, `swap` also returns 0, with the slot
and the domain untouched.  The demo writer tests this result: on a fresh domain
with the slot holding 0 it calls `free` on the configuration it has just
installed. -/
theorem swap_zero_is_ambiguous :
    (∀ dom new_val, (swap true dom 0 new_val).2.2 = 0 ∧
      (swap true dom 0 new_val).2.1 = new_val ∧
      list_contains (swap true dom 0 new_val).1.pointers new_val = true) ∧
    (∀ dom prot new_val, list_contains dom.pointers 0 = false →
      swap false dom prot new_val = (dom, prot, 0)) ∧
    (∃ dom new_val, new_val ≠ 0 ∧ swap true dom 0 new_val = (⟨[new_val], [], []⟩, new_val, 0) ∧
      swap false ⟨[7], [], []⟩ 0 new_val = (⟨[7], [], []⟩, 0, 0) ∧
      writer_thread_iter 0 true dom 0 new_val =
        some (WriterOutcome.aborted ⟨[new_val], [], []⟩ new_val new_val)) := by
  refine ⟨fun dom new_val => ?_, fun dom prot new_val h => ?_,
    ⟨domain_new, 8, by decide, by decide, by decide, by decide⟩⟩
  · obtain ⟨⟨l, node⟩, hi⟩ := list_insert_or_append_alloc dom.pointers new_val
    have hc := (list_insert_or_append_contains true _ new_val _ hi).1
    simp only [swap, hi, true_and]
    exact hc
  · simp [swap, list_insert_or_append_fail _ _ h]

/-- Both ways of returning 0, on concrete domains. -/
theorem swap_zero_is_ambiguous_witness :
    list_contains [7] 0 = false ∧
    swap true domain_new 0 8 = (⟨[8], [], []⟩, 8, 0) ∧
    swap false ⟨[7], [], []⟩ 0 8 = (⟨[7], [], []⟩, 0, 0) :=
  ⟨by decide, by decide, swap_zero_is_ambiguous.2.1 ⟨[7], [], []⟩ 0 8 (by decide)⟩

end HazardPointer
